import Mathlib

/-!
Verification of the manager-HTTPD file browser firmware (mngr_httpd.c,
download.c) against its natural-language specification.

Strings and byte buffers are modelled as `List Nat` (byte values); a C
string argument is the list of its bytes before the NUL terminator, and a
nullable pointer is an `Option`.  JSON responses are modelled as an
inductive `Resp` whose constructors stand for the distinct JSON texts the
handlers build.  The FatFS file system is modelled as an association list
from paths to byte contents (for the flat transfer handlers) and as a tree
of named entries (for `delete_path`).
-/

namespace Mngr

/-- Byte list of a string literal (ASCII). -/
def strBytes (s : String) : List Nat := s.toList.map Char.toNat

/-! ## url_decode (mngr_httpd.c lines 43-67) -/

/-- C `isxdigit` on a byte value. -/
def isxdigit (b : Nat) : Bool :=
  (48 ≤ b && b ≤ 57) || (65 ≤ b && b ≤ 70) || (97 ≤ b && b ≤ 102)

/-- C `toupper` on a byte value. -/
def c_toupper (b : Nat) : Nat := if 97 ≤ b ∧ b ≤ 122 then b - 32 else b

/-- The nibble computation of url_decode:
`hi >= 'A' ? (toupper(hi) - 'A' + 10) : (hi - '0')`. -/
def hexNibble (b : Nat) : Nat := if 65 ≤ b then c_toupper b - 65 + 10 else b - 48

/-- The copy loop of `url_decode`: `room` is the space left before the
reserved terminator cell (`outLen - 1` minus bytes already written); the
loop stops when the input is exhausted or `room` runs out.  A `%` escape
consumes three input bytes when the next two bytes are hex digits, and is
copied verbatim otherwise; `+` becomes a space. -/
def url_decode_loop : Nat → List Nat → List Nat
  | 0, _ => []
  | _, [] => []
  | room + 1, 37 :: h :: l :: rest =>
    if isxdigit h ∧ isxdigit l then
      (hexNibble h * 16 + hexNibble l) :: url_decode_loop room rest
    else
      37 :: url_decode_loop room (h :: l :: rest)
  | room + 1, 37 :: rest => 37 :: url_decode_loop room rest
  | room + 1, 43 :: rest => 32 :: url_decode_loop room rest
  | room + 1, b :: rest => b :: url_decode_loop room rest

/-- `url_decode(in, out, outLen)`.  `inp = none` models a NULL input
pointer; `out = none` a NULL output pointer; otherwise `out = some buf`
models a buffer whose capacity is `buf.length` and whose current contents
are `buf`.  The result is the returned flag together with the buffer
contents after the call. -/
def url_decode (inp : Option (List Nat)) (out : Option (List Nat)) :
    Bool × Option (List Nat) :=
  match inp, out with
  | some i, some buf =>
    if buf.length = 0 then (false, some buf)
    else
      let w := url_decode_loop (buf.length - 1) i
      (true, some (w ++ 0 :: buf.drop (w.length + 1)))
  | _, _ => (false, out)

/-- Modelled from the spec (§4.1): a byte is a hexadecimal digit
(case-insensitive). -/
def hexDigit (b : Nat) : Bool :=
  (48 ≤ b && b ≤ 57) || (65 ≤ b && b ≤ 70) || (97 ≤ b && b ≤ 102)

/-- Modelled from the spec (§4.1): the value a hex digit denotes. -/
def hexVal (b : Nat) : Nat :=
  if b ≤ 57 then b - 48 else if b ≤ 70 then b - 55 else b - 87

/-- Modelled from the spec (§4.1): full percent-decoding with no capacity
limit — `%XX` → byte, `+` → space, all other bytes verbatim. -/
def specDecode : List Nat → List Nat
  | [] => []
  | 37 :: h :: l :: rest =>
    if hexDigit h ∧ hexDigit l then (hexVal h * 16 + hexVal l) :: specDecode rest
    else 37 :: specDecode (h :: l :: rest)
  | 37 :: rest => 37 :: specDecode rest
  | 43 :: rest => 32 :: specDecode rest
  | b :: rest => b :: specDecode rest

theorem isxdigit_eq_hexDigit : isxdigit = hexDigit := rfl

theorem hexNibble_eq_hexVal {b : Nat} (h : hexDigit b = true) :
    hexNibble b = hexVal b := by
  simp only [hexDigit, Bool.or_eq_true, Bool.and_eq_true, decide_eq_true_eq] at h
  simp only [hexNibble, c_toupper, hexVal]
  split_ifs <;> omega

theorem url_decode_loop_eq_take (i : List Nat) :
    ∀ room : Nat, url_decode_loop room i = (specDecode i).take room := by
  induction i using specDecode.induct with
  | case1 =>
    intro room
    cases room <;> simp [url_decode_loop, specDecode]
  | case2 h l rest hguard ih =>
    intro room
    cases room with
    | zero => simp [url_decode_loop]
    | succ r =>
      simp only [url_decode_loop, specDecode, isxdigit_eq_hexDigit,
        List.take_succ_cons, if_pos hguard,
        hexNibble_eq_hexVal hguard.1, hexNibble_eq_hexVal hguard.2, ih]
  | case3 h l rest hguard ih =>
    intro room
    cases room with
    | zero => simp [url_decode_loop]
    | succ r =>
      simp only [url_decode_loop, specDecode, isxdigit_eq_hexDigit,
        List.take_succ_cons, if_neg hguard, ih]
  | case4 rest hshape ih =>
    intro room
    cases room with
    | zero => simp [url_decode_loop]
    | succ r =>
      match rest, hshape with
      | [], _ =>
        simp [url_decode_loop, specDecode, ih]
      | [x], _ =>
        simp [url_decode_loop, specDecode, ih]
      | h :: l :: rest2, hshape => exact absurd rfl (hshape h l rest2)
  | case5 rest ih =>
    intro room
    cases room with
    | zero => simp [url_decode_loop]
    | succ r => simp [url_decode_loop, specDecode, ih]
  | case6 b rest hshape h37 h43 ih =>
    intro room
    cases room with
    | zero => simp [url_decode_loop]
    | succ r =>
      have hb37 : b ≠ 37 := fun hc => h37 hc
      have hb43 : b ≠ 43 := fun hc => h43 hc
      rw [show url_decode_loop (r + 1) (b :: rest) =
            b :: url_decode_loop r rest from by
          rcases rest with _ | ⟨x, _ | ⟨y, rest2⟩⟩ <;>
            simp [url_decode_loop, hb37, hb43],
        show specDecode (b :: rest) = b :: specDecode rest from by
          rcases rest with _ | ⟨x, _ | ⟨y, rest2⟩⟩ <;>
            simp [specDecode, hb37, hb43],
        List.take_succ_cons, ih]

/-- C3 (corrected): on the failure path `url_decode` returns `false`
without touching the output buffer, hence no null terminator is written.
Concretely, with a NULL input and a 1-byte output buffer holding byte 65,
the call fails and the buffer still holds 65, not a terminating 0. -/
theorem C3_url_decode_failure_cex :
    url_decode none (some [65]) = (false, some [65]) ∧
      (url_decode none (some [65])).2 ≠ some [0] := by
  constructor <;> decide

/-- C3 (amended): `url_decode` returns not-ok exactly when the input
pointer is NULL, the output pointer is NULL, or the output capacity is
zero; in every such failing call the output buffer is left unmodified (in
particular, no null terminator is written into it). -/
theorem C3_url_decode_failure (inp out : Option (List Nat)) :
    ((url_decode inp out).1 = false ↔
      (inp = none ∨ out = none ∨ out = some [])) ∧
    ((url_decode inp out).1 = false → (url_decode inp out).2 = out) := by
  match inp, out with
  | none, none => simp [url_decode]
  | none, some buf => simp [url_decode]
  | some i, none => simp [url_decode]
  | some i, some buf =>
    by_cases h : buf.length = 0
    · have : buf = [] := List.length_eq_zero.mp h
      subst this
      simp [url_decode]
    · have : buf ≠ [] := fun hc => h (by simp [hc])
      simp [url_decode, h, this]

theorem C3_url_decode_failure_witness :
    ((url_decode none (some [65])).1 = false ↔
      ((none : Option (List Nat)) = none ∨ (some [65] : Option (List Nat)) = none ∨
        (some [65] : Option (List Nat)) = some [])) ∧
    ((url_decode none (some [65])).1 = false →
      (url_decode none (some [65])).2 = some [65]) :=
  C3_url_decode_failure none (some [65])

/-- C4 (confirmed): for every non-NULL input and non-NULL output buffer of
non-zero capacity, `url_decode` succeeds; the bytes written are the
percent-decoded input (`%XX` → byte with case-insensitive hex digits,
`+` → space, everything else verbatim) silently truncated to capacity − 1
bytes, followed by a null terminator; the rest of the buffer is untouched. -/
theorem C4_url_decode_happy (i buf : List Nat) (hbuf : buf ≠ []) :
    url_decode (some i) (some buf) =
      (true, some ((specDecode i).take (buf.length - 1) ++
        0 :: buf.drop (((specDecode i).take (buf.length - 1)).length + 1))) := by
  have h : buf.length ≠ 0 := by simpa using hbuf
  simp [url_decode, h, url_decode_loop_eq_take]

theorem C4_url_decode_happy_witness :
    url_decode (some (strBytes "a%2Bb+c")) (some [9, 9, 9, 9, 9, 9, 9, 9]) =
      (true, some ((specDecode (strBytes "a%2Bb+c")).take 7 ++
        0 :: [9, 9, 9, 9, 9, 9, 9, 9].drop
          (((specDecode (strBytes "a%2Bb+c")).take 7).length + 1))) :=
  C4_url_decode_happy (strBytes "a%2Bb+c") [9, 9, 9, 9, 9, 9, 9, 9] (by decide)

/-! ## Transfer context pools (mngr_httpd.c lines 415-500) -/

def UPLOAD_CHUNK_SIZE : Nat := 4096

def DOWNLOAD_CHUNK_SIZE : Nat := 2048

def MAX_UPLOAD_CONTEXTS : Nat := 4

def MAX_DOWNLOAD_CONTEXTS : Nat := 4

def MAX_JSON_PAYLOAD_SIZE : Nat := 4096

/-- One slot of a transfer pool.  `upload_ctx_t` and `download_ctx_t` are
textually identical structs; both are embedded by this one type.  The open
`FIL` handle is modelled by the path of the file it refers to plus the
current file position. -/
structure TransferCtx where
  token : List Nat
  filePath : List Nat
  pos : Nat
  in_use : Bool
deriving DecidableEq

def initCtx : TransferCtx := ⟨[], [], 0, false⟩

/-- `static upload_ctx_t upload_contexts[MAX_UPLOAD_CONTEXTS] = {0}` -/
def upload_contexts_init : List TransferCtx := List.replicate MAX_UPLOAD_CONTEXTS initCtx

/-- `static download_ctx_t download_contexts[MAX_DOWNLOAD_CONTEXTS] = {0}` -/
def download_contexts_init : List TransferCtx := List.replicate MAX_DOWNLOAD_CONTEXTS initCtx

/-- Linear scan for the first in-use slot whose token matches exactly
(body of both `find_upload_ctx` and `find_download_ctx`); returns the slot
index. -/
def findCtx : List TransferCtx → List Nat → Option Nat
  | [], _ => none
  | c :: rest, tok =>
    if c.in_use ∧ c.token = tok then some 0
    else (findCtx rest tok).map (· + 1)

/-- First-free-slot allocation (body of both `alloc_upload_ctx` and
`alloc_download_ctx`): marks the slot in-use and stores the token
truncated by `strncpy(..., sizeof(token) - 1)` to 31 bytes.  Returns the
slot index and the updated pool, or `none` when every slot is in use. -/
def allocCtx : List TransferCtx → List Nat → Option (Nat × List TransferCtx)
  | [], _ => none
  | c :: rest, tok =>
    if c.in_use then
      (allocCtx rest tok).map (fun r => (r.1 + 1, c :: r.2))
    else
      some (0, { c with in_use := true, token := tok.take 31 } :: rest)

/-- Release a slot (body of both `free_upload_ctx` and
`free_download_ctx`): closes the file and clears `in_use`; a slot that is
not in use is left alone. -/
def freeCtxAt (pool : List TransferCtx) (i : Nat) : List TransferCtx :=
  match pool[i]? with
  | none => pool
  | some c => if c.in_use then pool.set i { c with in_use := false } else pool

def find_upload_ctx (pool : List TransferCtx) (tok : List Nat) : Option Nat :=
  findCtx pool tok

def alloc_upload_ctx (pool : List TransferCtx) (tok : List Nat) :
    Option (Nat × List TransferCtx) :=
  allocCtx pool tok

def free_upload_ctx (pool : List TransferCtx) (i : Nat) : List TransferCtx :=
  freeCtxAt pool i

def find_download_ctx (pool : List TransferCtx) (tok : List Nat) : Option Nat :=
  findCtx pool tok

def alloc_download_ctx (pool : List TransferCtx) (tok : List Nat) :
    Option (Nat × List TransferCtx) :=
  allocCtx pool tok

def free_download_ctx (pool : List TransferCtx) (i : Nat) : List TransferCtx :=
  freeCtxAt pool i

def countInUse (pool : List TransferCtx) : Nat := pool.countP (fun c => c.in_use)

/-! ## FatFS flat view and handler responses -/

/-- The FatFS volume as seen by the flat transfer handlers: an association
list from file paths to byte contents. -/
abbrev Fs := List (List Nat × List Nat)

def fsGet (fs : Fs) (p : List Nat) : Option (List Nat) :=
  (fs.find? (fun e => e.1 = p)).map (fun e => e.2)

def fsSet : Fs → List Nat → List Nat → Fs
  | [], p, d => [(p, d)]
  | e :: rest, p, d => if e.1 = p then (p, d) :: rest else e :: fsSet rest p d

/-- The distinct JSON texts written into `json_buff` by the handlers. -/
inductive Resp where
  | errorMissingParams
  | errorInvalidPath
  | errorNoContext
  | errorCannotOpen
  | errorInvalidParams
  | errorInvalidPayloadEncoding
  | errorInvalidBase64
  | errorWriteFailed
  | errorReadFailed
  | errorEncodeFailed
  | errorInvalidToken
  | uploadStarted (chunkSize : Nat) (methodPost : Bool)
  | downloadStarted (chunkSize fileSize : Nat)
  | chunkData (length : Nat) (data : List Nat)
  | chunkOk
  | completed
  | cancelled
  | deleted
  | errorDirNotEmpty
  | errorDeleteFailed
deriving DecidableEq

def tokenK : List Nat := strBytes "token"

def fullpathK : List Nat := strBytes "fullpath"

def chunkK : List Nat := strBytes "chunk"

def payloadK : List Nat := strBytes "payload"

/-- The parameter scan loop of the CGI handlers: each matching name
overwrites the previous value, so the last occurrence wins. -/
def getLastParam (ps : List (List Nat × List Nat)) (name : List Nat) :
    Option (List Nat) :=
  ps.foldl (fun acc e => if e.1 = name then some e.2 else acc) none

/-- `url_decode` into a fresh stack buffer of capacity `cap`, viewed as
the written C string. -/
def url_decode_str (inp : List Nat) (cap : Nat) : Bool × List Nat :=
  if cap = 0 then (false, []) else (true, url_decode_loop (cap - 1) inp)

/-- Point a freshly allocated slot's `FIL` at an opened file. -/
def setCtxFile (pool : List TransferCtx) (i : Nat) (path : List Nat) :
    List TransferCtx :=
  match pool[i]? with
  | none => pool
  | some c => pool.set i { c with filePath := path, pos := 0 }

/-- `cgi_upload_start` (lines 503-537).  `bad` is the set of paths for
which `f_open(..., FA_WRITE | FA_CREATE_ALWAYS)` fails; opening any other
path truncates/creates that file. -/
def cgi_upload_start (bad : List (List Nat)) (fs : Fs) (pool : List TransferCtx)
    (params : List (List Nat × List Nat)) : List TransferCtx × Fs × Resp :=
  match getLastParam params tokenK, getLastParam params fullpathK with
  | some tok, some fp =>
    let d := url_decode_str fp 256
    if !d.1 then (pool, fs, .errorInvalidPath)
    else
      match allocCtx pool tok with
      | none => (pool, fs, .errorNoContext)
      | some (i, pool1) =>
        if d.2 ∈ bad then (freeCtxAt pool1 i, fs, .errorCannotOpen)
        else (setCtxFile pool1 i d.2, fsSet fs d.2 [],
          .uploadStarted UPLOAD_CHUNK_SIZE true)
  | _, _ => (pool, fs, .errorMissingParams)

/-- `cgi_download_start` (lines 625-657): opens for read, which fails
exactly when the file does not exist; on success reports the chunk size
and the file size. -/
def cgi_download_start (fs : Fs) (pool : List TransferCtx)
    (params : List (List Nat × List Nat)) : List TransferCtx × Resp :=
  match getLastParam params tokenK, getLastParam params fullpathK with
  | some tok, some fp =>
    let d := url_decode_str fp 256
    if !d.1 then (pool, .errorInvalidPath)
    else
      match allocCtx pool tok with
      | none => (pool, .errorNoContext)
      | some (i, pool1) =>
        match fsGet fs d.2 with
        | none => (freeCtxAt pool1 i, .errorCannotOpen)
        | some data =>
          (setCtxFile pool1 i d.2, .downloadStarted DOWNLOAD_CHUNK_SIZE data.length)
  | _, _ => (pool, .errorMissingParams)

theorem allocCtx_none_iff (pool : List TransferCtx) (tok : List Nat) :
    allocCtx pool tok = none ↔ ∀ c ∈ pool, c.in_use = true := by
  induction pool with
  | nil => simp [allocCtx]
  | cons c rest ih =>
    cases hc : c.in_use with
    | true => simp [allocCtx, hc, ih, Option.map_eq_none']
    | false =>
      simp only [allocCtx, hc]
      simp only [Bool.false_eq_true, if_false]
      constructor
      · intro h; exact absurd h (by simp)
      · intro hall
        have := hall c (by simp)
        rw [hc] at this
        exact absurd this (by simp)

theorem freeCtxAt_cons_succ (c : TransferCtx) (rest : List TransferCtx) (i : Nat) :
    freeCtxAt (c :: rest) (i + 1) = c :: freeCtxAt rest i := by
  unfold freeCtxAt
  cases h : rest[i]? with
  | none => simp [List.getElem?_cons_succ, h]
  | some x =>
    simp only [List.getElem?_cons_succ, h]
    cases hx : x.in_use <;> simp [hx, List.set_cons_succ]

theorem freeCtxAt_length (pool : List TransferCtx) (i : Nat) :
    (freeCtxAt pool i).length = pool.length := by
  unfold freeCtxAt
  cases h : pool[i]? with
  | none => rfl
  | some c => cases hc : c.in_use <;> simp [hc]

theorem allocCtx_isSome_of_free (pool : List TransferCtx) (tok : List Nat)
    (h : ∃ c ∈ pool, c.in_use = false) : allocCtx pool tok ≠ none := by
  intro hn
  obtain ⟨c, hc, hcu⟩ := h
  have h2 := (allocCtx_none_iff pool tok).mp hn c hc
  rw [hcu] at h2
  exact absurd h2 (by simp)

theorem freeCtxAt_has_free (pool : List TransferCtx) (i : Nat)
    (h : i < pool.length) : ∃ c ∈ freeCtxAt pool i, c.in_use = false := by
  induction pool generalizing i with
  | nil => simp at h
  | cons c rest ih =>
    cases i with
    | zero =>
      cases hc : c.in_use with
      | true =>
        refine ⟨{ c with in_use := false }, ?_, rfl⟩
        simp [freeCtxAt, List.getElem?_cons_zero, hc]
      | false =>
        exact ⟨c, by simp [freeCtxAt, List.getElem?_cons_zero, hc], hc⟩
    | succ j =>
      have hj : j < rest.length := by simpa using h
      obtain ⟨x, hx, hxu⟩ := ih j hj
      exact ⟨x, by simp [freeCtxAt_cons_succ, hx], hxu⟩

theorem alloc_free_countInUse (pool : List TransferCtx) (tok : List Nat) :
    ∀ i pool1, allocCtx pool tok = some (i, pool1) →
      countInUse (freeCtxAt pool1 i) = countInUse pool := by
  induction pool with
  | nil => intro i pool1 h; simp [allocCtx] at h
  | cons c rest ih =>
    intro i pool1 h
    cases hc : c.in_use with
    | true =>
      rw [allocCtx, hc, if_pos rfl, Option.map_eq_some'] at h
      obtain ⟨⟨j, rest1⟩, hrec, heq⟩ := h
      injection heq with hi hp
      subst hi hp
      rw [freeCtxAt_cons_succ]
      simp only [countInUse, List.countP_cons]
      rw [show List.countP (fun c => c.in_use) (freeCtxAt rest1 j) =
        countInUse (freeCtxAt rest1 j) from rfl, ih j rest1 hrec]
      rfl
    | false =>
      rw [allocCtx, hc, if_neg (by simp), Option.some.injEq] at h
      injection h with hi hp
      subst hi hp
      simp [freeCtxAt, List.getElem?_cons_zero, countInUse, List.countP_cons, hc]

/-- C5 (confirmed): both pools have exactly 4 slots; a `*_start` request
arriving when every slot of the respective pool is occupied answers
exactly the JSON error "no context available" and changes neither the
pool nor the file system; an allocation on a full pool fails, and after
releasing any one occupied slot the next allocation succeeds. -/
theorem C5_pool_capacity :
    upload_contexts_init.length = 4 ∧ download_contexts_init.length = 4 ∧
    (∀ bad fs pool tok fp, (∀ c ∈ pool, c.in_use = true) →
      cgi_upload_start bad fs pool [(tokenK, tok), (fullpathK, fp)] =
        (pool, fs, .errorNoContext)) ∧
    (∀ fs pool tok fp, (∀ c ∈ pool, c.in_use = true) →
      cgi_download_start fs pool [(tokenK, tok), (fullpathK, fp)] =
        (pool, .errorNoContext)) ∧
    (∀ pool tok, (∀ c ∈ pool, c.in_use = true) → allocCtx pool tok = none) ∧
    (∀ pool tok2 i, i < pool.length →
      allocCtx (freeCtxAt pool i) tok2 ≠ none) := by
  have hne : ¬(fullpathK = tokenK) := by decide
  refine ⟨rfl, rfl, ?_, ?_, ?_, ?_⟩
  · intro bad fs pool tok fp hfull
    have halloc : allocCtx pool tok = none := (allocCtx_none_iff pool tok).mpr hfull
    simp [cgi_upload_start, getLastParam, url_decode_str, halloc, hne]
  · intro fs pool tok fp hfull
    have halloc : allocCtx pool tok = none := (allocCtx_none_iff pool tok).mpr hfull
    simp [cgi_download_start, getLastParam, url_decode_str, halloc, hne]
  · intro pool tok hfull
    exact (allocCtx_none_iff pool tok).mpr hfull
  · intro pool tok2 i hi
    exact allocCtx_isSome_of_free _ _ (freeCtxAt_has_free pool i hi)

theorem C5_pool_capacity_witness :
    cgi_upload_start [] []
        (List.replicate 4 (⟨[], [], 0, true⟩ : TransferCtx))
        [(tokenK, strBytes "t"), (fullpathK, strBytes "p")] =
      (List.replicate 4 (⟨[], [], 0, true⟩ : TransferCtx), [],
        .errorNoContext) ∧
    cgi_download_start []
        (List.replicate 4 (⟨[], [], 0, true⟩ : TransferCtx))
        [(tokenK, strBytes "t"), (fullpathK, strBytes "p")] =
      (List.replicate 4 (⟨[], [], 0, true⟩ : TransferCtx), .errorNoContext) ∧
    allocCtx (List.replicate 4 (⟨[], [], 0, true⟩ : TransferCtx))
      (strBytes "t") = none ∧
    allocCtx (freeCtxAt (List.replicate 4 (⟨[], [], 0, true⟩ : TransferCtx)) 2)
      (strBytes "u") ≠ none :=
  ⟨C5_pool_capacity.2.2.1 [] []
      (List.replicate 4 (⟨[], [], 0, true⟩ : TransferCtx))
      (strBytes "t") (strBytes "p") (by decide),
   C5_pool_capacity.2.2.2.1 []
      (List.replicate 4 (⟨[], [], 0, true⟩ : TransferCtx))
      (strBytes "t") (strBytes "p") (by decide),
   C5_pool_capacity.2.2.2.2.1
      (List.replicate 4 (⟨[], [], 0, true⟩ : TransferCtx))
      (strBytes "t") (by decide),
   C5_pool_capacity.2.2.2.2.2
      (List.replicate 4 (⟨[], [], 0, true⟩ : TransferCtx))
      (strBytes "u") 2 (by decide)⟩

/-- C6 (confirmed): whenever `cgi_upload_start` answers anything other
than the started response — in particular when opening the destination
file for write fails after a slot was allocated — the slot is released
again, and the number of in-use upload contexts is the same before and
after the call. -/
theorem C6_upload_start_atomic (bad : List (List Nat)) (fs : Fs)
    (pool : List TransferCtx) (params : List (List Nat × List Nat))
    (h : (cgi_upload_start bad fs pool params).2.2 ≠
      .uploadStarted UPLOAD_CHUNK_SIZE true) :
    countInUse (cgi_upload_start bad fs pool params).1 = countInUse pool := by
  unfold cgi_upload_start at *
  cases htok : getLastParam params tokenK with
  | none => simp [htok] at h ⊢
  | some tok =>
    cases hfp : getLastParam params fullpathK with
    | none => simp [htok, hfp] at h ⊢
    | some fp =>
      simp only [htok, hfp] at h ⊢
      by_cases hdec : (url_decode_str fp 256).1
      · simp only [hdec, Bool.not_true, if_false] at h ⊢
        cases halloc : allocCtx pool tok with
        | none => simp [halloc]
        | some r =>
          obtain ⟨i, pool1⟩ := r
          simp only [halloc] at h ⊢
          by_cases hbad : (url_decode_str fp 256).2 ∈ bad
          · simp only [hbad, if_true]
            exact alloc_free_countInUse pool tok i pool1 halloc
          · simp [hbad] at h
      · simp [hdec] at h ⊢

/-! ## Token uniqueness (claim C2) -/

/-- Tokens of the in-use slots, in pool order. -/
def activeTokens (pool : List TransferCtx) : List (List Nat) :=
  (pool.filter (fun c => c.in_use)).map (fun c => c.token)

/-- Every token is carried by at most one in-use slot. -/
def TokensUnique (pool : List TransferCtx) : Prop := (activeTokens pool).Nodup

theorem activeTokens_cons_true {c : TransferCtx} (rest : List TransferCtx)
    (hc : c.in_use = true) :
    activeTokens (c :: rest) = c.token :: activeTokens rest := by
  simp [activeTokens, List.filter_cons, hc]

theorem activeTokens_cons_false {c : TransferCtx} (rest : List TransferCtx)
    (hc : c.in_use = false) :
    activeTokens (c :: rest) = activeTokens rest := by
  simp [activeTokens, List.filter_cons, hc]

theorem findCtx_none_iff (pool : List TransferCtx) (t : List Nat) :
    findCtx pool t = none ↔ t ∉ activeTokens pool := by
  induction pool with
  | nil => simp [findCtx, activeTokens]
  | cons c rest ih =>
    cases hc : c.in_use with
    | true =>
      rw [activeTokens_cons_true rest hc]
      by_cases ht : c.token = t
      · simp [findCtx, hc, ht]
      · have hcond : ¬(c.in_use = true ∧ c.token = t) := fun h => ht h.2
        rw [show findCtx (c :: rest) t = (findCtx rest t).map (· + 1) from by
          simp only [findCtx]; rw [if_neg hcond]]
        rw [Option.map_eq_none', ih, List.mem_cons, not_or]
        constructor
        · intro h
          exact ⟨fun he => ht he.symm, h⟩
        · intro h
          exact h.2
    | false =>
      rw [activeTokens_cons_false rest hc]
      have hcond : ¬(c.in_use = true ∧ c.token = t) := fun h => by
        rw [hc] at h; exact absurd h.1 (by simp)
      rw [show findCtx (c :: rest) t = (findCtx rest t).map (· + 1) from by
        simp only [findCtx]; rw [if_neg hcond]]
      rw [Option.map_eq_none', ih]

theorem allocCtx_activeTokens (pool : List TransferCtx) (tok : List Nat) :
    ∀ i pool1, allocCtx pool tok = some (i, pool1) →
      ∃ l1 l2, activeTokens pool = l1 ++ l2 ∧
        activeTokens pool1 = l1 ++ tok.take 31 :: l2 := by
  induction pool with
  | nil => intro i pool1 h; simp [allocCtx] at h
  | cons c rest ih =>
    intro i pool1 h
    cases hc : c.in_use with
    | true =>
      rw [allocCtx, hc, if_pos rfl, Option.map_eq_some'] at h
      obtain ⟨⟨j, rest1⟩, hrec, heq⟩ := h
      injection heq with hi hp
      subst hi hp
      obtain ⟨l1, l2, h1, h2⟩ := ih j rest1 hrec
      refine ⟨c.token :: l1, l2, ?_, ?_⟩
      · rw [activeTokens_cons_true rest hc, h1]; rfl
      · rw [activeTokens_cons_true rest1 hc, h2]; rfl
    | false =>
      rw [allocCtx, hc, if_neg (by simp), Option.some.injEq] at h
      injection h with hi hp
      subst hi hp
      refine ⟨[], activeTokens rest, ?_, ?_⟩
      · rw [activeTokens_cons_false rest hc, List.nil_append]
      · rw [activeTokens_cons_true rest rfl, List.nil_append]

theorem freeCtxAt_activeTokens (pool : List TransferCtx) (i : Nat) :
    (activeTokens (freeCtxAt pool i)).Sublist (activeTokens pool) := by
  induction pool generalizing i with
  | nil => exact List.Sublist.refl _
  | cons c rest ih =>
    cases i with
    | zero =>
      cases hc : c.in_use with
      | true =>
        rw [show freeCtxAt (c :: rest) 0 = { c with in_use := false } :: rest from by
          simp [freeCtxAt, List.getElem?_cons_zero, hc]]
        rw [activeTokens_cons_false rest rfl, activeTokens_cons_true rest hc]
        exact List.sublist_cons_self _ _
      | false =>
        rw [show freeCtxAt (c :: rest) 0 = c :: rest from by
          simp [freeCtxAt, List.getElem?_cons_zero, hc]]
    | succ j =>
      rw [freeCtxAt_cons_succ]
      cases hc : c.in_use with
      | true =>
        rw [activeTokens_cons_true _ hc, activeTokens_cons_true _ hc]
        exact List.Sublist.cons₂ _ (ih j)
      | false =>
        rw [activeTokens_cons_false _ hc, activeTokens_cons_false _ hc]
        exact ih j

theorem setCtxFile_activeTokens (pool : List TransferCtx) (i : Nat) (p : List Nat) :
    activeTokens (setCtxFile pool i p) = activeTokens pool := by
  induction pool generalizing i with
  | nil => rfl
  | cons c rest ih =>
    cases i with
    | zero =>
      rw [show setCtxFile (c :: rest) 0 p =
        { c with filePath := p, pos := 0 } :: rest from by
          simp [setCtxFile, List.getElem?_cons_zero]]
      cases hc : c.in_use with
      | true => rw [activeTokens_cons_true rest rfl, activeTokens_cons_true rest hc]
      | false => rw [activeTokens_cons_false rest rfl, activeTokens_cons_false rest hc]
    | succ j =>
      rw [show setCtxFile (c :: rest) (j + 1) p = c :: setCtxFile rest j p from by
        unfold setCtxFile
        cases h : rest[j]? with
        | none => simp [List.getElem?_cons_succ, h]
        | some x => simp [List.getElem?_cons_succ, h, List.set_cons_succ]]
      cases hc : c.in_use with
      | true => rw [activeTokens_cons_true _ hc, activeTokens_cons_true _ hc, ih j]
      | false => rw [activeTokens_cons_false _ hc, activeTokens_cons_false _ hc, ih j]

theorem countP_activeTokens (pool : List TransferCtx) (tok : List Nat) :
    pool.countP (fun c => c.in_use && decide (c.token = tok)) =
      (activeTokens pool).countP (fun x => decide (x = tok)) := by
  induction pool with
  | nil => rfl
  | cons c rest ih =>
    cases hc : c.in_use with
    | true =>
      rw [activeTokens_cons_true rest hc]
      by_cases ht : c.token = tok
      · simp [List.countP_cons, hc, ht, ih]
      · simp [List.countP_cons, hc, ht, ih]
    | false =>
      rw [activeTokens_cons_false rest hc]
      simp [List.countP_cons, hc, ih]

theorem nodup_countP_le_one {l : List (List Nat)} (h : l.Nodup) (tok : List Nat) :
    l.countP (fun x => decide (x = tok)) ≤ 1 := by
  induction l with
  | nil => simp
  | cons a l ih =>
    rw [List.nodup_cons] at h
    rw [List.countP_cons]
    by_cases ht : a = tok
    · subst ht
      have hz : l.countP (fun x => decide (x = a)) = 0 :=
        List.countP_eq_zero.mpr (fun b hb => by
          simp only [decide_eq_true_eq]
          exact fun he => h.1 (he ▸ hb))
      simp [hz]
    · rw [if_neg (by simp [ht])]
      simpa using ih h.2

theorem allocCtx_tokensUnique (pool : List TransferCtx) (tok : List Nat)
    (i : Nat) (pool1 : List TransferCtx)
    (hfresh : findCtx pool (tok.take 31) = none) (hu : TokensUnique pool)
    (halloc : allocCtx pool tok = some (i, pool1)) : TokensUnique pool1 := by
  obtain ⟨l1, l2, h1, h2⟩ := allocCtx_activeTokens pool tok i pool1 halloc
  have hnotin : tok.take 31 ∉ activeTokens pool :=
    (findCtx_none_iff pool (tok.take 31)).mp hfresh
  have hu' : (activeTokens pool).Nodup := hu
  rw [h1] at hnotin hu'
  show (activeTokens pool1).Nodup
  rw [h2, List.nodup_middle, List.nodup_cons]
  exact ⟨hnotin, hu'⟩

/-- C2 (corrected): the code does not enforce token uniqueness.  Starting
two uploads with the same token "t" (both opens succeeding) makes the
second `upload_start` succeed as well, after which two distinct in-use
slots carry the token "t". -/
theorem C2_token_uniqueness_cex :
    ((cgi_upload_start []
        (cgi_upload_start [] [] upload_contexts_init
          [(tokenK, strBytes "t"), (fullpathK, strBytes "/a")]).2.1
        (cgi_upload_start [] [] upload_contexts_init
          [(tokenK, strBytes "t"), (fullpathK, strBytes "/a")]).1
        [(tokenK, strBytes "t"), (fullpathK, strBytes "/b")]).2.2 =
      .uploadStarted UPLOAD_CHUNK_SIZE true) ∧
    ((cgi_upload_start []
        (cgi_upload_start [] [] upload_contexts_init
          [(tokenK, strBytes "t"), (fullpathK, strBytes "/a")]).2.1
        (cgi_upload_start [] [] upload_contexts_init
          [(tokenK, strBytes "t"), (fullpathK, strBytes "/a")]).1
        [(tokenK, strBytes "t"), (fullpathK, strBytes "/b")]).1.countP
      (fun c => c.in_use && decide (c.token = strBytes "t")) = 2) := by
  constructor <;> decide

/-- C2 (amended): a token maps to at most one active slot per direction
*provided* every `*_start` uses a token whose 31-byte truncation is not
already active; under that proviso allocation, release and `upload_start`
itself preserve the at-most-one-slot-per-token invariant, and a unique
pool has at most one in-use slot matching any given token.  Without the
proviso a second successful `upload_start` with an already-active token
does create a second in-use slot with the same token (see the
counterexample). -/
theorem C2_token_uniqueness :
    (∀ pool tok, TokensUnique pool →
      pool.countP (fun c => c.in_use && decide (c.token = tok)) ≤ 1) ∧
    (∀ pool tok i pool1, findCtx pool (tok.take 31) = none → TokensUnique pool →
      allocCtx pool tok = some (i, pool1) → TokensUnique pool1) ∧
    (∀ pool i, TokensUnique pool → TokensUnique (freeCtxAt pool i)) ∧
    (∀ bad fs pool tok fp, findCtx pool (tok.take 31) = none → TokensUnique pool →
      TokensUnique (cgi_upload_start bad fs pool
        [(tokenK, tok), (fullpathK, fp)]).1) := by
  have hne : ¬(fullpathK = tokenK) := by decide
  refine ⟨?_, ?_, ?_, ?_⟩
  · intro pool tok hu
    rw [countP_activeTokens]
    exact nodup_countP_le_one hu tok
  · exact fun pool tok i pool1 hfresh hu halloc =>
      allocCtx_tokensUnique pool tok i pool1 hfresh hu halloc
  · exact fun pool i hu => List.Nodup.sublist (freeCtxAt_activeTokens pool i) hu
  · intro bad fs pool tok fp hfresh hu
    have htok : getLastParam [(tokenK, tok), (fullpathK, fp)] tokenK = some tok := by
      simp [getLastParam, hne]
    have hfp : getLastParam [(tokenK, tok), (fullpathK, fp)] fullpathK = some fp := by
      simp [getLastParam, hne]
    have hdec : (url_decode_str fp 256).1 = true := by simp [url_decode_str]
    unfold cgi_upload_start
    rw [htok, hfp]
    simp only [hdec, Bool.not_true, if_false]
    cases halloc : allocCtx pool tok with
    | none => exact hu
    | some r =>
      obtain ⟨i, pool1⟩ := r
      have hu1 : TokensUnique pool1 :=
        allocCtx_tokensUnique pool tok i pool1 hfresh hu halloc
      by_cases hbad : (url_decode_str fp 256).2 ∈ bad
      · simp only [hbad, if_true]
        exact List.Nodup.sublist (freeCtxAt_activeTokens pool1 i) hu1
      · simp only [hbad, if_false]
        show (activeTokens (setCtxFile pool1 i (url_decode_str fp 256).2)).Nodup
        rw [setCtxFile_activeTokens]
        exact hu1

theorem C2_token_uniqueness_witness :
    TokensUnique upload_contexts_init →
      upload_contexts_init.countP
        (fun c => c.in_use && decide (c.token = strBytes "t")) ≤ 1 :=
  fun hu => C2_token_uniqueness.1 upload_contexts_init (strBytes "t") hu

theorem C6_upload_start_atomic_witness :
    countInUse (cgi_upload_start [strBytes "p"] [] upload_contexts_init
      [(tokenK, strBytes "t"), (fullpathK, strBytes "p")]).1 =
      countInUse upload_contexts_init :=
  C6_upload_start_atomic [strBytes "p"] [] upload_contexts_init
    [(tokenK, strBytes "t"), (fullpathK, strBytes "p")] (by decide)

/-! ## Base64 (mbedtls_base64_encode / mbedtls_base64_decode model) -/

/-- Standard base64 alphabet: sextet value to ASCII code. -/
def b64char (s : Nat) : Nat :=
  if s < 26 then 65 + s
  else if s < 52 then 97 + (s - 26)
  else if s < 62 then 48 + (s - 52)
  else if s = 62 then 43 else 47

/-- Inverse alphabet: ASCII code back to sextet value. -/
def b64inv (c : Nat) : Option Nat :=
  if 65 ≤ c ∧ c ≤ 90 then some (c - 65)
  else if 97 ≤ c ∧ c ≤ 122 then some (c - 97 + 26)
  else if 48 ≤ c ∧ c ≤ 57 then some (c - 48 + 52)
  else if c = 43 then some 62
  else if c = 47 then some 63
  else none

/-- Base64 encoding with standard `=` padding (ASCII 61). -/
def mbedtls_base64_encode : List Nat → List Nat
  | a :: b :: c :: rest =>
    b64char (a / 4) :: b64char (a % 4 * 16 + b / 16) ::
      b64char (b % 16 * 4 + c / 64) :: b64char (c % 64) ::
      mbedtls_base64_encode rest
  | [a, b] => [b64char (a / 4), b64char (a % 4 * 16 + b / 16), b64char (b % 16 * 4), 61]
  | [a] => [b64char (a / 4), b64char (a % 4 * 16), 61, 61]
  | [] => []

/-- Base64 decoding of well-formed groups of four with optional trailing
`=` padding; anything else is rejected. -/
def mbedtls_base64_decode : List Nat → Option (List Nat)
  | [] => some []
  | c1 :: c2 :: c3 :: c4 :: rest =>
    match b64inv c1, b64inv c2 with
    | some s1, some s2 =>
      if c3 = 61 then
        if c4 = 61 ∧ rest = [] then some [s1 * 4 + s2 / 16] else none
      else
        match b64inv c3 with
        | some s3 =>
          if c4 = 61 then
            if rest = [] then some [s1 * 4 + s2 / 16, s2 % 16 * 16 + s3 / 4] else none
          else
            match b64inv c4, mbedtls_base64_decode rest with
            | some s4, some tail =>
              some ((s1 * 4 + s2 / 16) :: (s2 % 16 * 16 + s3 / 4) ::
                (s3 % 4 * 64 + s4) :: tail)
            | _, _ => none
        | none => none
    | _, _ => none
  | _ => none

theorem b64inv_b64char : ∀ s, s < 64 → b64inv (b64char s) = some s := by decide

theorem b64char_ne_61 : ∀ s, s < 64 → b64char s ≠ 61 := by decide

theorem b64_roundtrip (l : List Nat) (h : ∀ b ∈ l, b < 256) :
    mbedtls_base64_decode (mbedtls_base64_encode l) = some l := by
  induction l using mbedtls_base64_encode.induct with
  | case1 a b c rest ih =>
    have ha : a < 256 := h a (by simp)
    have hb : b < 256 := h b (by simp)
    have hc : c < 256 := h c (by simp)
    have hrest := ih (fun x hx => h x (by simp [hx]))
    simp only [mbedtls_base64_encode, mbedtls_base64_decode]
    rw [b64inv_b64char _ (by omega), b64inv_b64char _ (by omega)]
    simp only []
    rw [if_neg (b64char_ne_61 _ (by omega))]
    rw [b64inv_b64char _ (by omega)]
    simp only []
    rw [if_neg (b64char_ne_61 _ (by omega))]
    rw [b64inv_b64char _ (by omega), hrest]
    simp only []
    have e1 : a / 4 * 4 + (a % 4 * 16 + b / 16) / 16 = a := by omega
    have e2 : (a % 4 * 16 + b / 16) % 16 * 16 + (b % 16 * 4 + c / 64) / 4 = b := by
      omega
    have e3 : (b % 16 * 4 + c / 64) % 4 * 64 + c % 64 = c := by omega
    rw [e1, e2, e3]
  | case2 a b =>
    have ha : a < 256 := h a (by simp)
    have hb : b < 256 := h b (by simp)
    simp only [mbedtls_base64_encode, mbedtls_base64_decode]
    rw [b64inv_b64char _ (by omega), b64inv_b64char _ (by omega)]
    simp only []
    rw [if_neg (b64char_ne_61 _ (by omega))]
    rw [b64inv_b64char _ (by omega)]
    simp only [if_pos rfl]
    have e1 : a / 4 * 4 + (a % 4 * 16 + b / 16) / 16 = a := by omega
    have e2 : (a % 4 * 16 + b / 16) % 16 * 16 + b % 16 * 4 / 4 = b := by omega
    rw [e1, e2]
    simp
  | case3 a =>
    have ha : a < 256 := h a (by simp)
    simp only [mbedtls_base64_encode, mbedtls_base64_decode]
    rw [b64inv_b64char _ (by omega), b64inv_b64char _ (by omega)]
    simp only []
    have e1 : a / 4 * 4 + a % 4 * 16 / 16 = a := by omega
    rw [e1]
    simp
  | case4 => rfl

/-! ## File writes and int parsing -/

/-- FatFS write of `bs` at byte offset `off` into a file currently holding
`old`: seeking past the end extends the file, then the bytes overwrite in
place. -/
def writeAt (old : List Nat) (off : Nat) (bs : List Nat) : List Nat :=
  old.take off ++ List.replicate (off - old.length) 0 ++ bs ++
    old.drop (off + bs.length)

/-- C `strlen` view of a byte buffer: the bytes before the first NUL. -/
def cstr (s : List Nat) : List Nat := s.takeWhile (fun b => decide (b ≠ 0))

def atoiDigits : List Nat → Nat → Nat
  | d :: rest, acc =>
    if 48 ≤ d ∧ d ≤ 57 then atoiDigits rest (acc * 10 + (d - 48)) else acc
  | [], acc => acc

/-- C `atoi`: skip whitespace, optional sign, then leading digits. -/
def atoi (s : List Nat) : Int :=
  match s.dropWhile (fun c => decide (c = 32 ∨ (9 ≤ c ∧ c ≤ 13))) with
  | 45 :: rest => -(atoiDigits rest 0 : Int)
  | 43 :: rest => (atoiDigits rest 0 : Int)
  | s1 => (atoiDigits s1 0 : Int)

/-- Cast of a C integer expression to the 32-bit unsigned `DWORD`. -/
def dword (z : Int) : Nat := (z % 4294967296).toNat

theorem dword_small (n : Nat) (h : n < 4294967296) : dword (n : Int) = n := by
  unfold dword
  rw [Int.emod_eq_of_lt (by positivity) (by exact_mod_cast h)]
  simp

/-- `cgi_upload_chunk` (lines 540-586): find the context by token,
percent-decode then base64-decode the payload, seek to
`chunk * UPLOAD_CHUNK_SIZE` and write the decoded bytes there. -/
def cgi_upload_chunk (fs : Fs) (pool : List TransferCtx)
    (params : List (List Nat × List Nat)) : List TransferCtx × Fs × Resp :=
  match getLastParam params tokenK with
  | none => (pool, fs, .errorInvalidParams)
  | some tok =>
    match findCtx pool tok, getLastParam params chunkK,
        getLastParam params payloadK with
    | some j, some chunkStr, some payload =>
      let d := url_decode_str payload (payload.length + 1)
      if !d.1 then (pool, fs, .errorInvalidPayloadEncoding)
      else
        let b64txt := cstr d.2
        match mbedtls_base64_decode b64txt with
        | none => (pool, fs, .errorInvalidBase64)
        | some bs =>
          if b64txt.length * 3 / 4 < bs.length then (pool, fs, .errorInvalidBase64)
          else
            let c := pool[j]?.getD initCtx
            let off := dword (atoi chunkStr * 4096)
            let old := (fsGet fs c.filePath).getD []
            (pool.set j { c with pos := off + bs.length },
              fsSet fs c.filePath (writeAt old off bs), .chunkOk)
    | _, _, _ => (pool, fs, .errorInvalidParams)

theorem writeAt_idem (old : List Nat) (off : Nat) (bs : List Nat) :
    writeAt (writeAt old off bs) off bs = writeAt old off bs := by
  have hP : (old.take off ++ List.replicate (off - old.length) 0).length = off := by
    simp only [List.length_append, List.length_take, List.length_replicate]
    omega
  set P := old.take off ++ List.replicate (off - old.length) 0 with hPdef
  set D := old.drop (off + bs.length) with hDdef
  have h1 : writeAt old off bs = P ++ (bs ++ D) := by
    simp only [writeAt, hPdef, hDdef, List.append_assoc]
  rw [h1]
  have t1 : (P ++ (bs ++ D)).take off = P := by
    rw [← hP]; exact List.take_left _ _
  have t2 : off - (P ++ (bs ++ D)).length = 0 := by
    simp only [List.length_append, hP]; omega
  have t3 : (P ++ (bs ++ D)).drop (off + bs.length) = D := by
    rw [← List.append_assoc]
    have hl : (P ++ bs).length = off + bs.length := by
      simp only [List.length_append, hP]
    rw [← hl]
    exact List.drop_left _ _
  unfold writeAt
  rw [t1, t2, t3, List.replicate_zero]
  simp

theorem fsGet_fsSet_self (fs : Fs) (p d : List Nat) :
    fsGet (fsSet fs p d) p = some d := by
  induction fs with
  | nil => simp [fsSet, fsGet]
  | cons e rest ih =>
    by_cases he : e.1 = p
    · rw [show fsSet (e :: rest) p d = (p, d) :: rest from by
        simp only [fsSet]; rw [if_pos he]]
      simp [fsGet]
    · rw [show fsSet (e :: rest) p d = e :: fsSet rest p d from by
        simp only [fsSet]; rw [if_neg he]]
      rw [fsGet, List.find?_cons_of_neg _ (by simpa using he)]
      exact ih

theorem fsSet_self_of_get (fs : Fs) (p v : List Nat) (h : fsGet fs p = some v) :
    fsSet fs p v = fs := by
  induction fs with
  | nil => simp [fsGet] at h
  | cons e rest ih =>
    by_cases he : e.1 = p
    · rw [fsGet, List.find?_cons_of_pos _ (by simpa using he),
        Option.map_some'] at h
      injection h with hv
      rw [show fsSet (e :: rest) p v = (p, v) :: rest from by
        simp only [fsSet]; rw [if_pos he]]
      rw [← he, ← hv]
    · rw [fsGet, List.find?_cons_of_neg _ (by simpa using he)] at h
      rw [show fsSet (e :: rest) p v = e :: fsSet rest p v from by
        simp only [fsSet]; rw [if_neg he]]
      rw [ih h]

theorem findCtx_getElem (pool : List TransferCtx) (tok : List Nat) :
    ∀ j, findCtx pool tok = some j →
      ∃ c0, pool[j]? = some c0 ∧ c0.in_use = true ∧ c0.token = tok := by
  induction pool with
  | nil => intro j h; simp [findCtx] at h
  | cons c rest ih =>
    intro j h
    by_cases hcond : c.in_use = true ∧ c.token = tok
    · rw [findCtx, if_pos hcond] at h
      injection h with hj
      subst hj
      exact ⟨c, by simp, hcond.1, hcond.2⟩
    · rw [findCtx, if_neg hcond, Option.map_eq_some'] at h
      obtain ⟨j0, hj0, hjeq⟩ := h
      subst hjeq
      obtain ⟨c0, hget, hu, ht⟩ := ih j0 hj0
      exact ⟨c0, by simpa [List.getElem?_cons_succ] using hget, hu, ht⟩

theorem findCtx_set (pool : List TransferCtx) (tok : List Nat) :
    ∀ j c0 c', findCtx pool tok = some j → pool[j]? = some c0 →
      c'.token = c0.token → c'.in_use = c0.in_use →
      findCtx (pool.set j c') tok = some j := by
  induction pool with
  | nil => intro j c0 c' h _ _ _; simp [findCtx] at h
  | cons c rest ih =>
    intro j c0 c' hfind hget htok huse
    by_cases hcond : c.in_use = true ∧ c.token = tok
    · rw [findCtx, if_pos hcond] at hfind
      injection hfind with hj
      subst hj
      rw [List.getElem?_cons_zero, Option.some.injEq] at hget
      subst hget
      rw [List.set_cons_zero, findCtx,
        if_pos ⟨by rw [huse]; exact hcond.1, by rw [htok]; exact hcond.2⟩]
    · rw [findCtx, if_neg hcond, Option.map_eq_some'] at hfind
      obtain ⟨j0, hj0, hjeq⟩ := hfind
      subst hjeq
      rw [List.getElem?_cons_succ] at hget
      rw [List.set_cons_succ, findCtx, if_neg hcond,
        ih j0 c0 c' hj0 hget htok huse]
      rfl

theorem getElem?_set_some (pool : List TransferCtx) (j : Nat) (c0 c' : TransferCtx)
    (h : pool[j]? = some c0) : (pool.set j c')[j]? = some c' := by
  have hj : j < pool.length := (List.getElem?_eq_some.mp h).1
  simp [List.getElem?_set_self', hj]

theorem cgi_upload_chunk_eq (fs : Fs) (pool : List TransferCtx)
    (tok chunkStr payload bs : List Nat) (j i : Nat) (c0 : TransferCtx)
    (hfind : findCtx pool tok = some j)
    (hget : pool[j]? = some c0)
    (hatoi : atoi chunkStr = (i : Int))
    (hoff : i * 4096 < 4294967296)
    (hdec : mbedtls_base64_decode (cstr (url_decode_loop payload.length payload)) =
      some bs)
    (hlen : bs.length ≤
      (cstr (url_decode_loop payload.length payload)).length * 3 / 4) :
    cgi_upload_chunk fs pool
        [(tokenK, tok), (chunkK, chunkStr), (payloadK, payload)] =
      (pool.set j { c0 with pos := i * 4096 + bs.length },
       fsSet fs c0.filePath
         (writeAt ((fsGet fs c0.filePath).getD []) (i * 4096) bs),
       .chunkOk) := by
  have h1 : ¬(chunkK = tokenK) := by decide
  have h2 : ¬(payloadK = tokenK) := by decide
  have h3 : ¬(tokenK = chunkK) := by decide
  have h4 : ¬(payloadK = chunkK) := by decide
  have h5 : ¬(tokenK = payloadK) := by decide
  have h6 : ¬(chunkK = payloadK) := by decide
  have htokp : getLastParam [(tokenK, tok), (chunkK, chunkStr),
      (payloadK, payload)] tokenK = some tok := by
    simp [getLastParam, h1, h2]
  have hchunkp : getLastParam [(tokenK, tok), (chunkK, chunkStr),
      (payloadK, payload)] chunkK = some chunkStr := by
    simp [getLastParam, h3, h4]
  have hpayp : getLastParam [(tokenK, tok), (chunkK, chunkStr),
      (payloadK, payload)] payloadK = some payload := by
    simp [getLastParam, h5, h6]
  have hd : url_decode_str payload (payload.length + 1) =
      (true, url_decode_loop payload.length payload) := by
    simp [url_decode_str]
  have hdw : dword ((i : Int) * 4096) = i * 4096 := by
    rw [show ((i : Int) * 4096) = ((i * 4096 : Nat) : Int) from by push_cast; ring]
    exact dword_small _ hoff
  unfold cgi_upload_chunk
  rw [htokp]
  simp only []
  rw [hfind, hchunkp, hpayp]
  simp only [hd, Bool.not_true, if_false]
  rw [hdec]
  simp only []
  rw [if_neg (Nat.not_lt.mpr hlen), hget]
  simp only [Option.getD_some]
  rw [hatoi, hdw]
  simp

/-- C7 (confirmed): a successful `upload_chunk` with chunk index `i`
writes the base64-decoded payload at byte offset `i * UPLOAD_CHUNK_SIZE`
of the context's open file (provided `i * 4096` fits a 32-bit int, so the
C offset arithmetic does not overflow), and repeating the identical
request overwrites the same byte range, leaving the file system exactly
as after the first request. -/
theorem C7_upload_chunk_idempotent (fs : Fs) (pool : List TransferCtx)
    (tok chunkStr payload bs : List Nat) (j i : Nat) (c0 : TransferCtx)
    (hfind : findCtx pool tok = some j)
    (hget : pool[j]? = some c0)
    (hatoi : atoi chunkStr = (i : Int))
    (hoff : i * 4096 < 4294967296)
    (hdec : mbedtls_base64_decode (cstr (url_decode_loop payload.length payload)) =
      some bs)
    (hlen : bs.length ≤
      (cstr (url_decode_loop payload.length payload)).length * 3 / 4) :
    (cgi_upload_chunk fs pool
        [(tokenK, tok), (chunkK, chunkStr), (payloadK, payload)]).2.2 =
      .chunkOk ∧
    (cgi_upload_chunk fs pool
        [(tokenK, tok), (chunkK, chunkStr), (payloadK, payload)]).2.1 =
      fsSet fs c0.filePath
        (writeAt ((fsGet fs c0.filePath).getD []) (i * 4096) bs) ∧
    (cgi_upload_chunk
        (cgi_upload_chunk fs pool
          [(tokenK, tok), (chunkK, chunkStr), (payloadK, payload)]).2.1
        (cgi_upload_chunk fs pool
          [(tokenK, tok), (chunkK, chunkStr), (payloadK, payload)]).1
        [(tokenK, tok), (chunkK, chunkStr), (payloadK, payload)]).2.1 =
      (cgi_upload_chunk fs pool
        [(tokenK, tok), (chunkK, chunkStr), (payloadK, payload)]).2.1 := by
  have hr1 := cgi_upload_chunk_eq fs pool tok chunkStr payload bs j i c0
    hfind hget hatoi hoff hdec hlen
  refine ⟨by rw [hr1], by rw [hr1], ?_⟩
  rw [hr1]
  set c1 : TransferCtx := { c0 with pos := i * 4096 + bs.length } with hc1
  set w : List Nat :=
    writeAt ((fsGet fs c0.filePath).getD []) (i * 4096) bs with hw
  set fs1 : Fs := fsSet fs c0.filePath w with hfs1
  have hfind2 : findCtx (pool.set j c1) tok = some j :=
    findCtx_set pool tok j c0 c1 hfind hget rfl rfl
  have hget2 : (pool.set j c1)[j]? = some c1 := getElem?_set_some pool j c0 c1 hget
  have hr2 := cgi_upload_chunk_eq fs1 (pool.set j c1) tok chunkStr payload bs j i c1
    hfind2 hget2 hatoi hoff hdec hlen
  rw [hr2]
  show fsSet fs1 c1.filePath
    (writeAt ((fsGet fs1 c1.filePath).getD []) (i * 4096) bs) = fs1
  have hpath : c1.filePath = c0.filePath := rfl
  rw [hpath]
  have hget1 : fsGet fs1 c0.filePath = some w := by
    rw [hfs1]; exact fsGet_fsSet_self fs c0.filePath w
  rw [hget1]
  simp only [Option.getD_some]
  rw [hw]
  rw [writeAt_idem]
  rw [← hw]
  exact fsSet_self_of_get fs1 c0.filePath w hget1

theorem C7_upload_chunk_idempotent_witness :
    (cgi_upload_chunk [] [⟨strBytes "t", strBytes "/f", 0, true⟩]
        [(tokenK, strBytes "t"), (chunkK, strBytes "0"),
          (payloadK, strBytes "AQID")]).2.2 = .chunkOk ∧
    (cgi_upload_chunk [] [⟨strBytes "t", strBytes "/f", 0, true⟩]
        [(tokenK, strBytes "t"), (chunkK, strBytes "0"),
          (payloadK, strBytes "AQID")]).2.1 =
      fsSet [] (⟨strBytes "t", strBytes "/f", 0, true⟩ : TransferCtx).filePath
        (writeAt ((fsGet []
          (⟨strBytes "t", strBytes "/f", 0, true⟩ : TransferCtx).filePath).getD [])
          (0 * 4096) [1, 2, 3]) ∧
    (cgi_upload_chunk
        (cgi_upload_chunk [] [⟨strBytes "t", strBytes "/f", 0, true⟩]
          [(tokenK, strBytes "t"), (chunkK, strBytes "0"),
            (payloadK, strBytes "AQID")]).2.1
        (cgi_upload_chunk [] [⟨strBytes "t", strBytes "/f", 0, true⟩]
          [(tokenK, strBytes "t"), (chunkK, strBytes "0"),
            (payloadK, strBytes "AQID")]).1
        [(tokenK, strBytes "t"), (chunkK, strBytes "0"),
          (payloadK, strBytes "AQID")]).2.1 =
      (cgi_upload_chunk [] [⟨strBytes "t", strBytes "/f", 0, true⟩]
        [(tokenK, strBytes "t"), (chunkK, strBytes "0"),
          (payloadK, strBytes "AQID")]).2.1 :=
  C7_upload_chunk_idempotent [] [⟨strBytes "t", strBytes "/f", 0, true⟩]
    (strBytes "t") (strBytes "0") (strBytes "AQID") [1, 2, 3] 0 0
    ⟨strBytes "t", strBytes "/f", 0, true⟩
    (by decide) (by decide) (by decide) (by decide) (by decide) (by decide)

/-! ## Chunked download (claim C1) -/

/-- `cgi_download_chunk` (lines 660-694): find the context by token, seek
to `(DWORD)chunk * DOWNLOAD_CHUNK_SIZE` (32-bit arithmetic; the read
position clamps at end of file), read up to `DOWNLOAD_CHUNK_SIZE` raw
bytes, base64-encode them into the 4096-byte buffer and answer the raw
byte count plus encoded text. -/
def cgi_download_chunk (fs : Fs) (pool : List TransferCtx)
    (params : List (List Nat × List Nat)) : List TransferCtx × Resp :=
  match getLastParam params tokenK with
  | none => (pool, .errorInvalidParams)
  | some tok =>
    match findCtx pool tok, getLastParam params chunkK with
    | some j, some chunkStr =>
      let c := pool[j]?.getD initCtx
      let off := dword (atoi chunkStr) * 2048 % 4294967296
      let data := (fsGet fs c.filePath).getD []
      let raw := (data.drop off).take 2048
      if MAX_JSON_PAYLOAD_SIZE < (raw.length + 2) / 3 * 4 + 1 then
        (pool, .errorEncodeFailed)
      else
        (pool.set j { c with pos := min off data.length + raw.length },
          .chunkData raw.length (mbedtls_base64_encode raw))
    | _, _ => (pool, .errorInvalidParams)

theorem allocCtx_find (pool : List TransferCtx) (tok : List Nat)
    (htok : tok.take 31 = tok) :
    ∀ i pool1, allocCtx pool tok = some (i, pool1) → findCtx pool tok = none →
      findCtx pool1 tok = some i ∧
        ∃ c0, pool1[i]? = some c0 ∧ c0.token = tok ∧ c0.in_use = true := by
  induction pool with
  | nil => intro i pool1 h _; simp [allocCtx] at h
  | cons c rest ih =>
    intro i pool1 halloc hfresh
    have hcond : ¬(c.in_use = true ∧ c.token = tok) := by
      intro hcd
      rw [findCtx, if_pos hcd] at hfresh
      exact Option.noConfusion hfresh
    rw [findCtx, if_neg hcond, Option.map_eq_none'] at hfresh
    cases hc : c.in_use with
    | true =>
      rw [allocCtx, hc, if_pos rfl, Option.map_eq_some'] at halloc
      obtain ⟨⟨j, rest1⟩, hrec, heq⟩ := halloc
      injection heq with hi hp
      subst hi hp
      obtain ⟨hfindr, c0, hget, ht, hu⟩ := ih j rest1 hrec hfresh
      refine ⟨?_, c0, by simpa [List.getElem?_cons_succ] using hget, ht, hu⟩
      rw [findCtx, if_neg hcond, hfindr]
      rfl
    | false =>
      rw [allocCtx, hc, if_neg (by simp), Option.some.injEq] at halloc
      injection halloc with hi hp
      subst hi hp
      refine ⟨?_, _, List.getElem?_cons_zero, htok, rfl⟩
      rw [findCtx, if_pos ⟨rfl, htok⟩]

theorem cgi_download_start_ok (fs : Fs) (pool : List TransferCtx)
    (tok fp path data : List Nat)
    (htok : tok.take 31 = tok)
    (hdec : url_decode_str fp 256 = (true, path))
    (hfile : fsGet fs path = some data)
    (hfresh : findCtx pool tok = none)
    (hfree : ∃ c ∈ pool, c.in_use = false) :
    ∃ j pool2 c2,
      cgi_download_start fs pool [(tokenK, tok), (fullpathK, fp)] =
        (pool2, .downloadStarted DOWNLOAD_CHUNK_SIZE data.length) ∧
      findCtx pool2 tok = some j ∧ pool2[j]? = some c2 ∧ c2.filePath = path := by
  have hne : ¬(fullpathK = tokenK) := by decide
  have htokp : getLastParam [(tokenK, tok), (fullpathK, fp)] tokenK = some tok := by
    simp [getLastParam, hne]
  have hfpp : getLastParam [(tokenK, tok), (fullpathK, fp)] fullpathK = some fp := by
    simp [getLastParam, hne]
  cases halloc : allocCtx pool tok with
  | none => exact absurd halloc (allocCtx_isSome_of_free pool tok hfree)
  | some r =>
    obtain ⟨i, pool1⟩ := r
    obtain ⟨hfind1, c0, hget1, htk, hus⟩ :=
      allocCtx_find pool tok htok i pool1 halloc hfresh
    refine ⟨i, pool1.set i { c0 with filePath := path, pos := 0 },
      { c0 with filePath := path, pos := 0 }, ?_, ?_, ?_, rfl⟩
    · unfold cgi_download_start
      rw [htokp, hfpp]
      simp only [hdec, Bool.not_true, if_false]
      rw [halloc]
      simp only []
      rw [hfile]
      simp only []
      rw [show setCtxFile pool1 i path =
        pool1.set i { c0 with filePath := path, pos := 0 } from by
          unfold setCtxFile; rw [hget1]]
      simp
    · exact findCtx_set pool1 tok i c0 _ hfind1 hget1 rfl rfl
    · exact getElem?_set_some pool1 i c0 _ hget1

theorem cgi_download_chunk_eq (fs : Fs) (pool2 : List TransferCtx)
    (tok s path data : List Nat) (j i : Nat) (c2 : TransferCtx)
    (hfind : findCtx pool2 tok = some j) (hget : pool2[j]? = some c2)
    (hpath : c2.filePath = path) (hfile : fsGet fs path = some data)
    (hatoi : atoi s = (i : Int)) (hoff : 2048 * i < 4294967296) :
    (cgi_download_chunk fs pool2 [(tokenK, tok), (chunkK, s)]).2 =
      .chunkData ((data.drop (2048 * i)).take 2048).length
        (mbedtls_base64_encode ((data.drop (2048 * i)).take 2048)) := by
  have hne : ¬(chunkK = tokenK) := by decide
  have hne2 : ¬(tokenK = chunkK) := by decide
  have htokp : getLastParam [(tokenK, tok), (chunkK, s)] tokenK = some tok := by
    simp [getLastParam, hne]
  have hsp : getLastParam [(tokenK, tok), (chunkK, s)] chunkK = some s := by
    simp [getLastParam, hne2]
  have hdwi : dword (i : Int) = i := dword_small i (by omega)
  have hoffeq : dword (atoi s) * 2048 % 4294967296 = 2048 * i := by
    rw [hatoi, hdwi, Nat.mul_comm]
    exact Nat.mod_eq_of_lt hoff
  unfold cgi_download_chunk
  rw [htokp]
  simp only []
  rw [hfind, hsp]
  simp only [hoffeq, hget, Option.getD_some, hpath, hfile]
  rw [if_neg (by
    have hle : ((data.drop (2048 * i)).take 2048).length ≤ 2048 := by
      simp
    simp only [MAX_JSON_PAYLOAD_SIZE]
    omega)]

theorem sum_chunk_lengths (n : Nat) : ∀ m : Nat,
    ((List.range m).map (fun i => min 2048 (n - 2048 * i))).sum = min n (2048 * m) := by
  intro m
  induction m with
  | zero => simp
  | succ k ih =>
    rw [List.range_succ, List.map_append, List.sum_append, ih]
    simp only [List.map_cons, List.map_nil, List.sum_cons, List.sum_nil]
    omega

theorem flatMap_chunks (data : List Nat) : ∀ m : Nat,
    (List.range m).flatMap (fun i => (data.drop (2048 * i)).take 2048) =
      data.take (2048 * m) := by
  intro m
  induction m with
  | zero => simp
  | succ k ih =>
    rw [List.range_succ, List.flatMap_append, ih]
    simp only [List.flatMap_cons, List.flatMap_nil, List.append_nil]
    rw [show 2048 * (k + 1) = 2048 * k + 2048 from by ring, List.take_add]

/-- C1 (confirmed): for a readable file, `download_start` with a fresh
token (and a free slot) reports the fixed chunk size 2048 and the exact
file size; each `download_chunk` at index `i ≤ fileSize / 2048` answers
the raw byte count `min 2048 (fileSize - 2048 i)` and the base64 encoding
of exactly bytes `[2048 i, 2048 i + len)`; chunks before index
`fileSize / 2048` report length 2048 and the chunk at that index reports
less than 2048 (the client's stopping rule); the reported lengths over
indices `0 .. fileSize / 2048` sum to the file size; every chunk's data
field base64-decodes back to its raw bytes; and the concatenation of the
raw chunks is the original file content. -/
theorem C1_download_roundtrip (fs : Fs) (pool : List TransferCtx)
    (tok fp path data : List Nat)
    (htok : tok.take 31 = tok)
    (hdec : url_decode_str fp 256 = (true, path))
    (hfile : fsGet fs path = some data)
    (hbytes : ∀ b ∈ data, b < 256)
    (hsize : data.length < 2147483648)
    (hfresh : findCtx pool tok = none)
    (hfree : ∃ c ∈ pool, c.in_use = false) :
    ∃ pool2,
      cgi_download_start fs pool [(tokenK, tok), (fullpathK, fp)] =
        (pool2, .downloadStarted DOWNLOAD_CHUNK_SIZE data.length) ∧
      (∀ (s : List Nat) (i : Nat), atoi s = (i : Int) → i ≤ data.length / 2048 →
        (cgi_download_chunk fs pool2 [(tokenK, tok), (chunkK, s)]).2 =
          .chunkData (min 2048 (data.length - 2048 * i))
            (mbedtls_base64_encode ((data.drop (2048 * i)).take 2048))) ∧
      (∀ i, i < data.length / 2048 → min 2048 (data.length - 2048 * i) = 2048) ∧
      min 2048 (data.length - 2048 * (data.length / 2048)) < 2048 ∧
      ((List.range (data.length / 2048 + 1)).map
        (fun i => min 2048 (data.length - 2048 * i))).sum = data.length ∧
      (∀ i, mbedtls_base64_decode
          (mbedtls_base64_encode ((data.drop (2048 * i)).take 2048)) =
        some ((data.drop (2048 * i)).take 2048)) ∧
      (List.range (data.length / 2048 + 1)).flatMap
        (fun i => (data.drop (2048 * i)).take 2048) = data := by
  obtain ⟨j, pool2, c2, hstart, hfind2, hget2, hpath2⟩ :=
    cgi_download_start_ok fs pool tok fp path data htok hdec hfile hfresh hfree
  refine ⟨pool2, hstart, ?_, ?_, ?_, ?_, ?_, ?_⟩
  · intro s i hs hi
    have hoff : 2048 * i < 4294967296 := by omega
    have hlen : ((data.drop (2048 * i)).take 2048).length =
        min 2048 (data.length - 2048 * i) := by simp
    rw [cgi_download_chunk_eq fs pool2 tok s path data j i c2 hfind2 hget2
      hpath2 hfile hs hoff, hlen]
  · intro i hi
    omega
  · omega
  · rw [sum_chunk_lengths]
    omega
  · intro i
    exact b64_roundtrip _ (fun b hb =>
      hbytes b (List.drop_subset _ _ (List.take_subset _ _ hb)))
  · rw [flatMap_chunks]
    exact List.take_of_length_le (by omega)

theorem C1_download_roundtrip_witness :
    ∃ pool2,
      cgi_download_start [(strBytes "/d", [1, 2])] download_contexts_init
        [(tokenK, strBytes "t"), (fullpathK, strBytes "/d")] =
        (pool2, .downloadStarted DOWNLOAD_CHUNK_SIZE ([1, 2] : List Nat).length) ∧
      (∀ (s : List Nat) (i : Nat), atoi s = (i : Int) →
        i ≤ ([1, 2] : List Nat).length / 2048 →
        (cgi_download_chunk [(strBytes "/d", [1, 2])] pool2
          [(tokenK, strBytes "t"), (chunkK, s)]).2 =
          .chunkData (min 2048 (([1, 2] : List Nat).length - 2048 * i))
            (mbedtls_base64_encode ((([1, 2] : List Nat).drop (2048 * i)).take 2048))) ∧
      (∀ i, i < ([1, 2] : List Nat).length / 2048 →
        min 2048 (([1, 2] : List Nat).length - 2048 * i) = 2048) ∧
      min 2048 (([1, 2] : List Nat).length -
        2048 * (([1, 2] : List Nat).length / 2048)) < 2048 ∧
      ((List.range (([1, 2] : List Nat).length / 2048 + 1)).map
        (fun i => min 2048 (([1, 2] : List Nat).length - 2048 * i))).sum =
        ([1, 2] : List Nat).length ∧
      (∀ i, mbedtls_base64_decode
          (mbedtls_base64_encode ((([1, 2] : List Nat).drop (2048 * i)).take 2048)) =
        some ((([1, 2] : List Nat).drop (2048 * i)).take 2048)) ∧
      (List.range (([1, 2] : List Nat).length / 2048 + 1)).flatMap
        (fun i => (([1, 2] : List Nat).drop (2048 * i)).take 2048) = [1, 2] :=
  C1_download_roundtrip [(strBytes "/d", [1, 2])] download_contexts_init
    (strBytes "t") (strBytes "/d") (strBytes "/d") [1, 2]
    (by decide) (by decide) (by decide) (by decide) (by decide) (by decide)
    (by decide)

/-! ## delete_path (mngr_httpd.c lines 762-781, claim C8) -/

inductive FRESULT where
  | FR_OK
  | FR_DENIED
  | FR_NO_FILE
deriving DecidableEq

/-- A FatFS directory entry: a regular file with contents, or a directory
with named children. -/
inductive Entry where
  | file (data : List Nat)
  | dir (children : List (List Nat × Entry))

/-- Resolve a path (list of name components) in a forest of named
entries, as FatFS resolves `a/b/c`. -/
def lookupE : List (List Nat × Entry) → List (List Nat) → Option Entry
  | _, [] => none
  | cs, [n] => (cs.find? (fun e => decide (e.1 = n))).map (fun e => e.2)
  | cs, n :: rest =>
    match cs.find? (fun e => decide (e.1 = n)) with
    | some (_, Entry.dir cs2) => lookupE cs2 rest
    | _ => none

/-- `f_unlink`: remove the entry named by the path; other entries keep
their place. -/
def removeE : List (List Nat × Entry) → List (List Nat) → List (List Nat × Entry)
  | cs, [] => cs
  | cs, [n] => cs.filter (fun e => decide (e.1 ≠ n))
  | cs, n :: rest => cs.map (fun e =>
      if e.1 = n then
        match e.2 with
        | Entry.dir cs2 => (e.1, Entry.dir (removeE cs2 rest))
        | ent => (e.1, ent)
      else e)

/-- `delete_path`: `f_stat`; for a directory read the first entry and
refuse (`FR_DENIED`) when one exists; otherwise `f_unlink`. -/
def delete_path (root : List (List Nat × Entry)) (path : List (List Nat)) :
    FRESULT × List (List Nat × Entry) :=
  match lookupE root path with
  | none => (.FR_NO_FILE, root)
  | some (Entry.dir cs) =>
    if cs.isEmpty then (.FR_OK, removeE root path) else (.FR_DENIED, root)
  | some (Entry.file _) => (.FR_OK, removeE root path)

/-- The JSON translation done by `cgi_del` (lines 782-811) on the
`delete_path` result code. -/
def cgi_del_resp (r : FRESULT) : Resp :=
  match r with
  | .FR_DENIED => .errorDirNotEmpty
  | .FR_OK => .deleted
  | _ => .errorDeleteFailed

theorem lookupE_single (cs : List (List Nat × Entry)) (n : List Nat) :
    lookupE cs [n] = (cs.find? (fun e => decide (e.1 = n))).map (fun e => e.2) := by
  simp only [lookupE]

theorem lookupE_deep (cs : List (List Nat × Entry)) (n r : List Nat)
    (rest : List (List Nat)) :
    lookupE cs (n :: r :: rest) =
      (match cs.find? (fun e => decide (e.1 = n)) with
       | some (_, Entry.dir cs2) => lookupE cs2 (r :: rest)
       | _ => none) := by
  simp only [lookupE]

theorem find?_filter_self (cs : List (List Nat × Entry)) (n : List Nat) :
    (cs.filter (fun e => decide (e.1 ≠ n))).find?
      (fun e => decide (e.1 = n)) = none := by
  rw [List.find?_eq_none]
  intro x hx
  have := (List.mem_filter.mp hx).2
  simp only [decide_eq_true_eq] at this ⊢
  exact this

theorem find?_filter_ne (cs : List (List Nat × Entry)) (n m : List Nat)
    (hmn : m ≠ n) :
    (cs.filter (fun e => decide (e.1 ≠ n))).find? (fun e => decide (e.1 = m)) =
      cs.find? (fun e => decide (e.1 = m)) := by
  induction cs with
  | nil => rfl
  | cons e cs ih =>
    by_cases hen : e.1 = n
    · rw [List.filter_cons_of_neg (by simp [hen]), ih,
        List.find?_cons_of_neg _ (by
          simp only [hen, decide_eq_true_eq]
          exact fun hc => hmn hc.symm)]
    · rw [List.filter_cons_of_pos (by simp [hen])]
      by_cases hem : e.1 = m
      · rw [List.find?_cons_of_pos _ (by simp [hem]),
          List.find?_cons_of_pos _ (by simp [hem])]
      · rw [List.find?_cons_of_neg _ (by simp [hem]),
          List.find?_cons_of_neg _ (by simp [hem]), ih]

theorem find?_map_keyfix (cs : List (List Nat × Entry))
    (f : List Nat × Entry → List Nat × Entry)
    (hf : ∀ e, (f e).1 = e.1) (m : List Nat) :
    (cs.map f).find? (fun e => decide (e.1 = m)) =
      (cs.find? (fun e => decide (e.1 = m))).map f := by
  induction cs with
  | nil => rfl
  | cons e cs ih =>
    by_cases hem : e.1 = m
    · rw [List.map_cons, List.find?_cons_of_pos _ (by simp [hf, hem]),
        List.find?_cons_of_pos _ (by simp [hem])]
      rfl
    · rw [List.map_cons, List.find?_cons_of_neg _ (by simp [hf, hem]),
        List.find?_cons_of_neg _ (by simp [hem]), ih]

theorem find?_key (cs : List (List Nat × Entry)) (m : List Nat)
    (e : List Nat × Entry)
    (h : cs.find? (fun e => decide (e.1 = m)) = some e) : e.1 = m := by
  have := List.find?_some h
  simpa using this

theorem lookupE_nil_forest (p : List (List Nat)) : lookupE [] p = none := by
  match p with
  | [] => rfl
  | [n] => simp [lookupE]
  | n :: r :: rest => simp [lookupE]

theorem find?_map_untouched (cs : List (List Nat × Entry))
    (f : List Nat × Entry → List Nat × Entry) (n : List Nat)
    (hf : ∀ e, (f e).1 = e.1) (hn : ∀ e, e.1 ≠ n → f e = e)
    (m : List Nat) (hmn : m ≠ n) :
    (cs.map f).find? (fun e => decide (e.1 = m)) =
      cs.find? (fun e => decide (e.1 = m)) := by
  rw [find?_map_keyfix cs f hf m]
  cases hq : cs.find? (fun e => decide (e.1 = m)) with
  | none => rfl
  | some e =>
    rw [Option.map_some', hn e (by rw [find?_key cs m e hq]; exact hmn)]

theorem removeE_lookup (path : List (List Nat)) :
    ∀ cs : List (List Nat × Entry),
      (lookupE cs path = some (Entry.dir []) ∨
        ∃ d, lookupE cs path = some (Entry.file d)) →
      ∀ p2 : List (List Nat),
        (lookupE (removeE cs path) p2 = none ↔
          (lookupE cs p2 = none ∨ p2 = path)) ∧
        (∀ d, p2 ≠ path →
          (lookupE (removeE cs path) p2 = some (Entry.file d) ↔
            lookupE cs p2 = some (Entry.file d))) := by
  induction path with
  | nil =>
    intro cs hent p2
    exfalso
    rcases hent with h | ⟨d, h⟩ <;> simp [lookupE] at h
  | cons n rest ih =>
    intro cs hent p2
    cases rest with
    | nil =>
      rw [show removeE cs [n] = cs.filter (fun e => decide (e.1 ≠ n)) from by
        simp only [removeE]]
      have hfound : ∃ e, cs.find? (fun e => decide (e.1 = n)) = some e ∧
          (e.2 = Entry.dir [] ∨ ∃ d, e.2 = Entry.file d) := by
        rcases hent with h | ⟨d, h⟩ <;>
          rw [lookupE_single, Option.map_eq_some'] at h
        · obtain ⟨e, he, hv⟩ := h
          exact ⟨e, he, Or.inl hv⟩
        · obtain ⟨e, he, hv⟩ := h
          exact ⟨e, he, Or.inr ⟨d, hv⟩⟩
      match p2 with
      | [] =>
        refine ⟨by simp [lookupE], fun d hne => by simp [lookupE]⟩
      | [m] =>
        by_cases hmn : m = n
        · subst hmn
          refine ⟨?_, fun d hne => absurd rfl hne⟩
          rw [lookupE_single, find?_filter_self]
          simp
        · have hIff : lookupE (cs.filter (fun e => decide (e.1 ≠ n))) [m] =
              lookupE cs [m] := by
            rw [lookupE_single, lookupE_single, find?_filter_ne cs n m hmn]
          refine ⟨?_, fun d hne => by rw [hIff]⟩
          rw [hIff]
          simp [hmn]
      | m :: r2 :: rest3 =>
        by_cases hmn : m = n
        · subst hmn
          obtain ⟨e, hfe, hcase⟩ := hfound
          have hrhs : lookupE cs (m :: r2 :: rest3) = none := by
            rw [lookupE_deep, hfe]
            rcases hcase with hv | ⟨d, hv⟩
            · obtain ⟨k, ent⟩ := e
              simp only at hv
              subst hv
              exact lookupE_nil_forest (r2 :: rest3)
            · obtain ⟨k, ent⟩ := e
              simp only at hv
              subst hv
              rfl
          have hlhs : lookupE (cs.filter (fun e => decide (e.1 ≠ m)))
              (m :: r2 :: rest3) = none := by
            rw [lookupE_deep, find?_filter_self]
          refine ⟨by rw [hlhs, hrhs]; simp, fun d hne => by rw [hlhs, hrhs]⟩
        · have hIff : lookupE (cs.filter (fun e => decide (e.1 ≠ n)))
              (m :: r2 :: rest3) = lookupE cs (m :: r2 :: rest3) := by
            rw [lookupE_deep, lookupE_deep, find?_filter_ne cs n m hmn]
          refine ⟨?_, fun d hne => by rw [hIff]⟩
          rw [hIff]
          simp [hmn]
    | cons r rest2 =>
      have hext : ∃ k cs2,
          cs.find? (fun e => decide (e.1 = n)) = some (k, Entry.dir cs2) ∧
          (lookupE cs2 (r :: rest2) = some (Entry.dir []) ∨
            ∃ d, lookupE cs2 (r :: rest2) = some (Entry.file d)) := by
        have hh : ∃ ent, lookupE cs (n :: r :: rest2) = some ent ∧
            (ent = Entry.dir [] ∨ ∃ d, ent = Entry.file d) := by
          rcases hent with h | ⟨d, h⟩
          · exact ⟨_, h, Or.inl rfl⟩
          · exact ⟨_, h, Or.inr ⟨d, rfl⟩⟩
        obtain ⟨ent, h, hcase⟩ := hh
        rw [lookupE_deep] at h
        cases hf : cs.find? (fun e => decide (e.1 = n)) with
        | none => rw [hf] at h; exact absurd h (by simp)
        | some e =>
          obtain ⟨k, ent2⟩ := e
          cases ent2 with
          | file d2 => rw [hf] at h; exact absurd h (by simp)
          | dir cs2 =>
            rw [hf] at h
            simp only [] at h
            rcases hcase with hv | ⟨d, hv⟩
            · exact ⟨k, cs2, rfl, Or.inl (hv ▸ h)⟩
            · exact ⟨k, cs2, rfl, Or.inr ⟨d, hv ▸ h⟩⟩
      obtain ⟨k, cs2, hfe, hent2⟩ := hext
      have hk : k = n := by
        have := find?_key cs n (k, Entry.dir cs2) hfe
        simpa using this
      rw [hk] at hfe
      have hrm : removeE cs (n :: r :: rest2) = cs.map (fun e =>
          if e.1 = n then
            match e.2 with
            | Entry.dir cs3 => (e.1, Entry.dir (removeE cs3 (r :: rest2)))
            | ent => (e.1, ent)
          else e) := by
        simp only [removeE]
      have hf2 : ∀ e : List Nat × Entry, ((fun e =>
          if e.1 = n then
            match e.2 with
            | Entry.dir cs3 => (e.1, Entry.dir (removeE cs3 (r :: rest2)))
            | ent => (e.1, ent)
          else e) e).1 = e.1 := by
        intro e
        by_cases he : e.1 = n
        · simp only [he, if_true]
          cases e.2 <;> rfl
        · simp only [he, if_false]
      have hn2 : ∀ e : List Nat × Entry, e.1 ≠ n → (fun e =>
          if e.1 = n then
            match e.2 with
            | Entry.dir cs3 => (e.1, Entry.dir (removeE cs3 (r :: rest2)))
            | ent => (e.1, ent)
          else e) e = e := by
        intro e he
        simp only [he, if_false]
      have hfmap : (cs.map (fun e =>
          if e.1 = n then
            match e.2 with
            | Entry.dir cs3 => (e.1, Entry.dir (removeE cs3 (r :: rest2)))
            | ent => (e.1, ent)
          else e)).find? (fun e => decide (e.1 = n)) =
          some (n, Entry.dir (removeE cs2 (r :: rest2))) := by
        rw [find?_map_keyfix _ _ hf2 n, hfe, Option.map_some']
        simp
      rw [hrm]
      match p2 with
      | [] =>
        refine ⟨by simp [lookupE], fun d hne => by simp [lookupE]⟩
      | [m] =>
        by_cases hmn : m = n
        · subst hmn
          have hlhs : lookupE (cs.map (fun e =>
              if e.1 = m then
                match e.2 with
                | Entry.dir cs3 => (e.1, Entry.dir (removeE cs3 (r :: rest2)))
                | ent => (e.1, ent)
              else e)) [m] = some (Entry.dir (removeE cs2 (r :: rest2))) := by
            rw [lookupE_single, hfmap, Option.map_some']
          have hrhs : lookupE cs [m] = some (Entry.dir cs2) := by
            rw [lookupE_single, hfe, Option.map_some']
          constructor
          · rw [hlhs, hrhs]
            simp
          · intro d hne
            rw [hlhs, hrhs]
            constructor
            · intro hc; exact absurd hc (by simp)
            · intro hc; exact absurd hc (by simp)
        · have hIff : lookupE (cs.map (fun e =>
              if e.1 = n then
                match e.2 with
                | Entry.dir cs3 => (e.1, Entry.dir (removeE cs3 (r :: rest2)))
                | ent => (e.1, ent)
              else e)) [m] = lookupE cs [m] := by
            rw [lookupE_single, lookupE_single,
              find?_map_untouched cs _ n hf2 hn2 m hmn]
          refine ⟨?_, fun d hne => by rw [hIff]⟩
          rw [hIff]
          simp [hmn]
      | m :: r2 :: rest3 =>
        by_cases hmn : m = n
        · subst hmn
          have hlhs : lookupE (cs.map (fun e =>
              if e.1 = m then
                match e.2 with
                | Entry.dir cs3 => (e.1, Entry.dir (removeE cs3 (r :: rest2)))
                | ent => (e.1, ent)
              else e)) (m :: r2 :: rest3) =
              lookupE (removeE cs2 (r :: rest2)) (r2 :: rest3) := by
            rw [lookupE_deep, hfmap]
          have hrhs : lookupE cs (m :: r2 :: rest3) = lookupE cs2 (r2 :: rest3) := by
            rw [lookupE_deep, hfe]
          obtain ⟨ihA, ihB⟩ := ih cs2 hent2 (r2 :: rest3)
          constructor
          · rw [hlhs, hrhs, ihA]
            simp
          · intro d hne
            rw [hlhs, hrhs]
            exact ihB d (by
              intro hc
              exact hne (by rw [hc]))
        · have hIff : lookupE (cs.map (fun e =>
              if e.1 = n then
                match e.2 with
                | Entry.dir cs3 => (e.1, Entry.dir (removeE cs3 (r :: rest2)))
                | ent => (e.1, ent)
              else e)) (m :: r2 :: rest3) = lookupE cs (m :: r2 :: rest3) := by
            rw [lookupE_deep, lookupE_deep,
              find?_map_untouched cs _ n hf2 hn2 m hmn]
          refine ⟨?_, fun d hne => by rw [hIff]⟩
          rw [hIff]
          simp [hmn]

/-- C8 (confirmed): deleting an existing directory that has at least one
child entry answers `FR_DENIED` (rendered as the "directory not empty"
JSON error) and leaves the file system tree exactly unchanged; deleting
an existing empty directory or regular file succeeds (rendered as the
"deleted" status) and removes exactly that entry: afterwards the path
resolves to nothing, every other path exists exactly as before, and every
other file keeps its contents. -/
theorem C8_delete_semantics (root : List (List Nat × Entry))
    (path : List (List Nat)) :
    (∀ cs, lookupE root path = some (Entry.dir cs) → cs ≠ [] →
      delete_path root path = (FRESULT.FR_DENIED, root) ∧
        cgi_del_resp (delete_path root path).1 = Resp.errorDirNotEmpty) ∧
    ((lookupE root path = some (Entry.dir []) ∨
        ∃ d, lookupE root path = some (Entry.file d)) →
      (delete_path root path).1 = FRESULT.FR_OK ∧
      cgi_del_resp (delete_path root path).1 = Resp.deleted ∧
      lookupE (delete_path root path).2 path = none ∧
      (∀ p2, lookupE (delete_path root path).2 p2 = none ↔
        (lookupE root p2 = none ∨ p2 = path)) ∧
      (∀ p2 d, p2 ≠ path →
        (lookupE (delete_path root path).2 p2 = some (Entry.file d) ↔
          lookupE root p2 = some (Entry.file d)))) := by
  constructor
  · intro cs h hne
    have hdel : delete_path root path = (FRESULT.FR_DENIED, root) := by
      unfold delete_path
      rw [h]
      simp only []
      rw [if_neg (by simpa [List.isEmpty_iff] using hne)]
    exact ⟨hdel, by rw [hdel]; rfl⟩
  · intro hent
    have hdel : delete_path root path = (FRESULT.FR_OK, removeE root path) := by
      unfold delete_path
      rcases hent with h | ⟨d, h⟩
      · rw [h]; rfl
      · rw [h]
    refine ⟨by rw [hdel], by rw [hdel]; rfl, ?_, ?_, ?_⟩
    · rw [hdel]
      exact ((removeE_lookup path root hent path).1).mpr (Or.inr rfl)
    · intro p2
      rw [hdel]
      exact (removeE_lookup path root hent p2).1
    · intro p2 d hne
      rw [hdel]
      exact (removeE_lookup path root hent p2).2 d hne

def fsC8 : List (List Nat × Entry) :=
  [(strBytes "a", Entry.dir [(strBytes "b", Entry.file [1])]),
   (strBytes "c", Entry.dir [])]

theorem C8_delete_semantics_witness :
    (delete_path fsC8 [strBytes "a"] = (FRESULT.FR_DENIED, fsC8) ∧
      cgi_del_resp (delete_path fsC8 [strBytes "a"]).1 = Resp.errorDirNotEmpty) ∧
    ((delete_path fsC8 [strBytes "c"]).1 = FRESULT.FR_OK ∧
      cgi_del_resp (delete_path fsC8 [strBytes "c"]).1 = Resp.deleted ∧
      lookupE (delete_path fsC8 [strBytes "c"]).2 [strBytes "c"] = none ∧
      (∀ p2, lookupE (delete_path fsC8 [strBytes "c"]).2 p2 = none ↔
        (lookupE fsC8 p2 = none ∨ p2 = [strBytes "c"])) ∧
      (∀ p2 d, p2 ≠ [strBytes "c"] →
        (lookupE (delete_path fsC8 [strBytes "c"]).2 p2 = some (Entry.file d) ↔
          lookupE fsC8 p2 = some (Entry.file d)))) :=
  ⟨(C8_delete_semantics fsC8 [strBytes "a"]).1
      [(strBytes "b", Entry.file [1])] rfl (List.cons_ne_nil _ _),
   (C8_delete_semantics fsC8 [strBytes "c"]).2 (Or.inl rfl)⟩

/-! ## parseUrl (download.c lines 184-250, claim C9) -/

/-- `strstr`: index of the first occurrence of `needle` in `hay`. -/
def strstrIdx : List Nat → List Nat → Option Nat
  | [], needle => if needle.isEmpty then some 0 else none
  | h :: t, needle =>
    if needle.isPrefixOf (h :: t) then some 0
    else (strstrIdx t needle).map (· + 1)

/-- `strchr`: index of the first occurrence of byte `c`. -/
def strchrIdx (s : List Nat) (c : Nat) : Option Nat :=
  s.findIdx? (fun b => decide (b = c))

/-- `strrchr`: index of the last occurrence of byte `c`. -/
def strrchrIdx (s : List Nat) (c : Nat) : Option Nat :=
  (s.reverse.findIdx? (fun b => decide (b = c))).map (fun j => s.length - 1 - j)

structure download_url_components_t where
  protocol : List Nat
  host : List Nat
  uri : List Nat
deriving DecidableEq

structure download_file_t where
  url : List Nat
  filename : List Nat
deriving DecidableEq

/-- The substring of the (truncated) URI after its last `/`, or the whole
URI when it holds no `/` — `parseUrl`'s filename start. -/
def uriTrailingSegment (uri : List Nat) : List Nat :=
  match strrchrIdx uri 47 with
  | some k => uri.drop (k + 1)
  | none => uri

/-- Filename extraction and struct assembly at the end of `parseUrl`:
an empty trailing segment falls back to "default.bin"; all `strncpy`
copies truncate to the destination capacity minus one. -/
def mkParsed (protocol host uri fileUrl : List Nat) (fnameCap : Nat) :
    download_url_components_t × download_file_t :=
  let fnameStart := uriTrailingSegment uri
  let filename :=
    if fnameStart ≠ [] then fnameStart.take (fnameCap - 1)
    else (strBytes "default.bin").take (fnameCap - 1)
  (⟨protocol, host, uri⟩, ⟨fileUrl, filename⟩)

/-- `parseUrl`, parametrised by the capacities of the fixed-size fields of
`download_url_components_t` (protocol, host, uri) and `download_file_t`
(filename, url), whose header is not part of this source. -/
def parseUrl (protoCap hostCap uriCap fnameCap urlCap : Nat) (url : List Nat) :
    Option (download_url_components_t × download_file_t) :=
  let fileUrl := url.take (urlCap - 1)
  match strstrIdx url (strBytes "://") with
  | none => none
  | some protocolLen =>
    if protoCap ≤ protocolLen then none
    else
      let protocol := url.take protocolLen
      let hostStart := url.drop (protocolLen + 3)
      match strchrIdx hostStart 47 with
      | some j =>
        if hostCap ≤ j then none
        else
          some (mkParsed protocol (hostStart.take j)
            ((hostStart.drop j).take (uriCap - 1)) fileUrl fnameCap)
      | none =>
        some (mkParsed protocol (hostStart.take (hostCap - 1)) [] fileUrl fnameCap)

theorem mkParsed_fallback (protocol host uri fileUrl : List Nat) (fc : Nat)
    (hseg : uriTrailingSegment uri = []) (hfc : 12 ≤ fc) :
    (mkParsed protocol host uri fileUrl fc).2.filename = strBytes "default.bin" := by
  unfold mkParsed
  simp only [hseg]
  rw [if_neg (by simp)]
  exact List.take_of_length_le (by
    rw [show (strBytes "default.bin").length = 11 from by decide]
    omega)

/-- C9 (confirmed): `parseUrl` maps "http://example.com/files/demo.zip"
to protocol "http", host "example.com", uri "/files/demo.zip" and derived
filename "demo.zip" (whenever the fixed struct fields are big enough to
hold them); and for every URL whose parsed (truncated) URI has no
non-empty segment after its final `/`, the derived filename is the fixed
fallback "default.bin". -/
theorem C9_parseUrl :
    (∀ pc hc uc fc urlc, 5 ≤ pc → 12 ≤ hc → 16 ≤ uc → 9 ≤ fc →
      parseUrl pc hc uc fc urlc (strBytes "http://example.com/files/demo.zip") =
        some (⟨strBytes "http", strBytes "example.com", strBytes "/files/demo.zip"⟩,
          ⟨(strBytes "http://example.com/files/demo.zip").take (urlc - 1),
            strBytes "demo.zip"⟩)) ∧
    (∀ pc hc uc fc urlc url comps f,
      parseUrl pc hc uc fc urlc url = some (comps, f) →
      uriTrailingSegment comps.uri = [] → 12 ≤ fc →
      f.filename = strBytes "default.bin") := by
  constructor
  · intro pc hc uc fc urlc hpc hhc huc hfc
    have h1 : strstrIdx (strBytes "http://example.com/files/demo.zip")
        (strBytes "://") = some 4 := by decide
    have h2 : strchrIdx ((strBytes "http://example.com/files/demo.zip").drop 7)
        47 = some 11 := by decide
    unfold parseUrl
    rw [h1]
    simp only []
    rw [if_neg (by omega)]
    rw [show (4 : Nat) + 3 = 7 from rfl, h2]
    simp only []
    rw [if_neg (by omega)]
    have h3 : ((strBytes "http://example.com/files/demo.zip").drop 7).drop 11 =
        strBytes "/files/demo.zip" := by decide
    have h4 : (strBytes "/files/demo.zip").take (uc - 1) =
        strBytes "/files/demo.zip" :=
      List.take_of_length_le (by
        rw [show (strBytes "/files/demo.zip").length = 15 from by decide]
        omega)
    rw [h3, h4]
    simp only [mkParsed]
    rw [show uriTrailingSegment (strBytes "/files/demo.zip") =
      strBytes "demo.zip" from by decide]
    rw [if_pos (by decide)]
    rw [show (strBytes "http://example.com/files/demo.zip").take 4 =
      strBytes "http" from by decide]
    rw [show ((strBytes "http://example.com/files/demo.zip").drop 7).take 11 =
      strBytes "example.com" from by decide]
    rw [show (strBytes "demo.zip").take (fc - 1) = strBytes "demo.zip" from
      List.take_of_length_le (by
        rw [show (strBytes "demo.zip").length = 8 from by decide]
        omega)]
  · intro pc hc uc fc urlc url comps f h hseg hfc
    unfold parseUrl at h
    cases hs : strstrIdx url (strBytes "://") with
    | none => rw [hs] at h; exact absurd h (by simp)
    | some protocolLen =>
      rw [hs] at h
      simp only [] at h
      by_cases hp : pc ≤ protocolLen
      · rw [if_pos hp] at h; exact absurd h (by simp)
      · rw [if_neg hp] at h
        cases hch : strchrIdx (url.drop (protocolLen + 3)) 47 with
        | some j =>
          rw [hch] at h
          simp only [] at h
          by_cases hj : hc ≤ j
          · rw [if_pos hj] at h; exact absurd h (by simp)
          · rw [if_neg hj, Option.some.injEq] at h
            have hf : (mkParsed (url.take protocolLen)
                ((url.drop (protocolLen + 3)).take j)
                (((url.drop (protocolLen + 3)).drop j).take (uc - 1))
                (url.take (urlc - 1)) fc).2 = f := by rw [h]
            have hcomps : (mkParsed (url.take protocolLen)
                ((url.drop (protocolLen + 3)).take j)
                (((url.drop (protocolLen + 3)).drop j).take (uc - 1))
                (url.take (urlc - 1)) fc).1 = comps := by rw [h]
            have huri : comps.uri =
                ((url.drop (protocolLen + 3)).drop j).take (uc - 1) := by
              rw [← hcomps]; simp [mkParsed]
            rw [← hf]
            exact mkParsed_fallback _ _ _ _ fc (huri ▸ hseg) hfc
        | none =>
          rw [hch, Option.some.injEq] at h
          have hf : (mkParsed (url.take protocolLen)
              ((url.drop (protocolLen + 3)).take (hc - 1)) []
              (url.take (urlc - 1)) fc).2 = f := by rw [h]
          have hcomps : (mkParsed (url.take protocolLen)
              ((url.drop (protocolLen + 3)).take (hc - 1)) []
              (url.take (urlc - 1)) fc).1 = comps := by rw [h]
          have huri : comps.uri = ([] : List Nat) := by
            rw [← hcomps]; simp [mkParsed]
          rw [← hf]
          exact mkParsed_fallback _ _ _ _ fc (huri ▸ hseg) hfc

theorem C9_parseUrl_witness :
    parseUrl 256 256 256 256 256 (strBytes "http://example.com/files/demo.zip") =
      some (⟨strBytes "http", strBytes "example.com", strBytes "/files/demo.zip"⟩,
        ⟨(strBytes "http://example.com/files/demo.zip").take (256 - 1),
          strBytes "demo.zip"⟩) ∧
    (⟨strBytes "http://example.com/", strBytes "default.bin"⟩ :
        download_file_t).filename = strBytes "default.bin" :=
  ⟨C9_parseUrl.1 256 256 256 256 256 (by omega) (by omega) (by omega) (by omega),
   C9_parseUrl.2 256 256 256 256 256 (strBytes "http://example.com/")
     ⟨strBytes "http", strBytes "example.com", strBytes "/"⟩
     ⟨strBytes "http://example.com/", strBytes "default.bin"⟩
     (by decide) (by decide) (by omega)⟩

/-! ## Raw-binary POST upload path (mngr_httpd.c lines 920-990, claim C10) -/

/-- The static globals shared by the three POST callbacks:
`current_connection`, `current_chunk_ctx` (a pointer into
`upload_contexts`, modelled as a slot index) and `current_chunk_idx`. -/
structure PostState where
  current_connection : Option Nat
  current_chunk_ctx : Option Nat
  current_chunk_idx : Nat
deriving DecidableEq

/-- The token parse in `httpd_post_begin`: find "token=" in the query
string and copy up to 31 bytes until `&` or end of string. -/
def parseQsToken (qs : List Nat) : Option (List Nat) :=
  match strstrIdx qs (strBytes "token=") with
  | none => none
  | some t => some (((qs.drop (t + 6)).takeWhile (fun b => decide (b ≠ 38))).take 31)

/-- `httpd_post_begin`: accept only `/upload_chunk.cgi` POSTs whose query
string names a token with an active upload context; on acceptance seek
the context's file to `chunk * UPLOAD_CHUNK_SIZE` (32-bit unsigned
arithmetic) and remember the connection; otherwise answer `ERR_VAL`.
The result is (accepted?, new globals, pool after the seek). -/
def httpd_post_begin (pool : List TransferCtx) (st : PostState) (conn : Nat)
    (uri : List Nat) : Bool × PostState × List TransferCtx :=
  if uri.take 17 = strBytes "/upload_chunk.cgi" then
    match strchrIdx uri 63 with
    | some q =>
      let qs := uri.drop q
      let st1 :=
        match parseQsToken qs with
        | some buf => { st with current_chunk_ctx := findCtx pool buf }
        | none => st
      let st2 :=
        match strstrIdx qs (strBytes "chunk=") with
        | some c => { st1 with current_chunk_idx := dword (atoi (qs.drop (c + 6))) }
        | none => st1
      match st2.current_chunk_ctx with
      | some j =>
        let pool2 :=
          match pool[j]? with
          | some c0 =>
            pool.set j { c0 with
              pos := st2.current_chunk_idx * UPLOAD_CHUNK_SIZE % 4294967296 }
          | none => pool
        (true, { st2 with current_connection := some conn }, pool2)
      | none => (false, st2, pool)
    | none => (false, st, pool)
  else (false, st, pool)

/-- The segment loop of `httpd_post_receive_data`: each pbuf segment is
written at the file position with `f_write`, whose result (`res` and
`written`) is discarded; `wOk` says whether the k-th write physically
succeeds, and a failed write simply leaves the file unchanged. -/
def writeSegs (wOk : Nat → Bool) (fs : Fs) (pool : List TransferCtx) (j : Nat) :
    List (List Nat) → Nat → Fs × List TransferCtx
  | [], _ => (fs, pool)
  | seg :: rest, k =>
    match pool[j]? with
    | some c0 =>
      if wOk k then
        writeSegs wOk
          (fsSet fs c0.filePath
            (writeAt ((fsGet fs c0.filePath).getD []) c0.pos seg))
          (pool.set j { c0 with pos := c0.pos + seg.length }) j rest (k + 1)
      else writeSegs wOk fs pool j rest (k + 1)
    | none => writeSegs wOk fs pool j rest (k + 1)

/-- `httpd_post_receive_data`: for the accepted connection, write every
pbuf segment and answer `ERR_OK` no matter how the writes went; anything
else is `ERR_VAL`. -/
def httpd_post_receive_data (wOk : Nat → Bool) (fs : Fs)
    (pool : List TransferCtx) (st : PostState) (conn : Nat)
    (p : Option (List (List Nat))) : Bool × Fs × List TransferCtx :=
  match p, st.current_chunk_ctx with
  | some segs, some j =>
    if st.current_connection = some conn then
      let r := writeSegs wOk fs pool j segs 0
      (true, r.1, r.2)
    else (false, fs, pool)
  | _, _ => (false, fs, pool)

/-- `httpd_post_finished`: clear the chunk context globals and always
answer the `chunk_ok` JSON. -/
def httpd_post_finished (st : PostState) : PostState × Resp :=
  ({ st with current_chunk_ctx := none, current_chunk_idx := 0 }, .chunkOk)

/-- C10 (confirmed): a raw POST to `/upload_chunk.cgi` whose query-string
token does not match any active upload context is rejected at
request-open time (`httpd_post_begin` answers `ERR_VAL`), before any body
data is accepted; on the accepted path `httpd_post_receive_data` answers
`ERR_OK` for every possible outcome of the underlying `f_write` calls
(the write results are discarded, so a failed or short write is neither
detected nor reported); and when the body ends `httpd_post_finished`
always answers `{"status":"chunk_ok"}` and clears the chunk context. -/
theorem C10_raw_post (pool : List TransferCtx) (st : PostState) (conn : Nat)
    (uri tok : List Nat) (q : Nat)
    (huri : uri.take 17 = strBytes "/upload_chunk.cgi")
    (hq : strchrIdx uri 63 = some q)
    (htokp : parseQsToken (uri.drop q) = some tok)
    (hnotfound : findCtx pool tok = none) :
    (httpd_post_begin pool st conn uri).1 = false ∧
    (∀ (wOk : Nat → Bool) (fs : Fs) (pool2 : List TransferCtx) (st2 : PostState)
      (conn2 j : Nat) (segs : List (List Nat)),
      st2.current_chunk_ctx = some j → st2.current_connection = some conn2 →
      (httpd_post_receive_data wOk fs pool2 st2 conn2 (some segs)).1 = true) ∧
    (∀ st3 : PostState, httpd_post_finished st3 =
      ({ st3 with current_chunk_ctx := none, current_chunk_idx := 0 }, .chunkOk)) := by
  refine ⟨?_, ?_, fun st3 => rfl⟩
  · unfold httpd_post_begin
    rw [if_pos huri, hq]
    simp only [htokp, hnotfound]
    cases hcs : strstrIdx (uri.drop q) (strBytes "chunk=") <;> simp [hcs]
  · intro wOk fs pool2 st2 conn2 j segs hctx hconn
    unfold httpd_post_receive_data
    rw [hctx]
    simp [hconn]

theorem C10_raw_post_witness :
    (httpd_post_begin upload_contexts_init ⟨none, none, 0⟩ 7
      (strBytes "/upload_chunk.cgi?token=zz&chunk=0")).1 = false ∧
    (∀ (wOk : Nat → Bool) (fs : Fs) (pool2 : List TransferCtx) (st2 : PostState)
      (conn2 j : Nat) (segs : List (List Nat)),
      st2.current_chunk_ctx = some j → st2.current_connection = some conn2 →
      (httpd_post_receive_data wOk fs pool2 st2 conn2 (some segs)).1 = true) ∧
    (∀ st3 : PostState, httpd_post_finished st3 =
      ({ st3 with current_chunk_ctx := none, current_chunk_idx := 0 }, .chunkOk)) :=
  C10_raw_post upload_contexts_init ⟨none, none, 0⟩ 7
    (strBytes "/upload_chunk.cgi?token=zz&chunk=0") (strBytes "zz") 17
    (by decide) (by decide) (by decide) (by decide)

end Mngr
